import Mathlib

/-!
Merkle tree engine of zama-server (`src/merkle/merkle.go`).

A shallow embedding of the hash-tree engine: leaf ingestion (`AddLeaf`), tree
construction (`BuildMerkleTree`), membership-proof generation
(`GenerateMerkleProofForSegment`) and proof verification (`VerifyMerkleProof`).

Modelling conventions.
* A Go `[]byte` is a `List (Fin 256)`.
* `sha256.Sum256` belongs to the Go standard library. It enters as a parameter
  `HashFn`, a function on byte strings together with the fact, carried by its Go
  result type `[32]byte`, that every result has `sha256.Size = 32` bytes.
* A `*MerkleNode` is modelled by the node value; null node pointers are not modelled.
* A Go method that mutates its receiver returns the new receiver value.
* A Go `error` is an `Option MerkleError`; `none` is `nil`.
* The `for` loop of `BuildMerkleTree` has no syntactic bound, so its model takes fuel
  and answers `none` when the fuel runs out or an index is out of range.
* The digests the program makes (results of `sha256.Sum256`, hence every node digest and
  every part of a generated proof) have no spare capacity, so that no `append` on them
  writes in place; tree nodes and generated proofs are modelled by their contents.
* `VerifyMerkleProof` is exported and takes whatever slices its caller holds. Its
  `append(currentHash, part.Hash...)` and `append(part.Hash, currentHash...)` write in
  place when the left operand has spare capacity. It is embedded over a memory of
  backing arrays (`verifyLoop`, `VerifyMerkleProofMem`); `VerifyMerkleProof` is that
  function on digests laid out one per backing array without spare capacity.
* `encoding/json`, `encoding/base64` and `ioutil` belong to the Go standard library.
  `SaveMerkleTree` and `LoadMerkleTree` are embedded over a model of them at the level of
  JSON documents: the text of a document is not modelled, a file that holds JSON text is
  given by the document the text denotes. The model answers `unmodelled` on documents
  outside the fragment it covers (members other than the struct tags, repeated members,
  `null` nodes, digests given as arrays of numbers), and nothing is stated about those.
-/

namespace Merkle

abbrev Byte := Fin 256

abbrev Bytes := List Byte

/-- The constant `sha256.Size`. -/
def Size : Nat := 32

/-- The library function `sha256.Sum256 : []byte → [32]byte`. -/
structure HashFn where
  Sum256 : Bytes → Bytes
  size_eq : ∀ data : Bytes, (Sum256 data).length = Size

/-- The Go struct `MerkleNode`. -/
structure MerkleNode where
  Hash : Bytes
deriving DecidableEq

/-- The Go struct `MerkleTree`. -/
structure MerkleTree where
  MerkleNodes : List (List MerkleNode)
  IsTreeBuilt : Bool
deriving DecidableEq

/-- The Go struct `ProofPart`. -/
structure ProofPart where
  Hash : Bytes
  IsRight : Bool
deriving DecidableEq

/-- The errors made with `fmt.Errorf` in `merkle.go`, one constructor per message. -/
inductive MerkleError where
  /-- The message "No leaves provided". -/
  | noLeaves
  /-- The message "Merkle tree is not properly constructed". -/
  | notConstructed
  /-- The message "Invalid segment index: index out of bounds". -/
  | indexOutOfBounds
  /-- The message "Invalid proof". -/
  | invalidProof
  /-- The message "Invalid hash size in proof part". -/
  | invalidHashSize
deriving DecidableEq

/-- The function `newMerkleNode`. -/
def newMerkleNode (hash : Bytes) : MerkleNode :=
  { Hash := hash }

/-- The zero value `&merkle.MerkleTree{}`. -/
def emptyTree : MerkleTree :=
  { MerkleNodes := [], IsTreeBuilt := false }

/-- The method `AddLeaf`: when there is no level yet an empty level 0 is appended first;
then the new leaf is appended to level 0. -/
def AddLeaf (H : HashFn) (mt : MerkleTree) (data : Bytes) : MerkleTree :=
  let hash := H.Sum256 data
  let leaf := newMerkleNode hash
  let nodes := if mt.MerkleNodes.length = 0 then mt.MerkleNodes ++ [[]] else mt.MerkleNodes
  match nodes with
  | [] => mt
  | level0 :: upper => { mt with MerkleNodes := (level0 ++ [leaf]) :: upper }

/-- The method `GetRootHash`: `mt.MerkleNodes[len(mt.MerkleNodes)-1][0].Hash`. An index
out of range (a Go panic) is `none`. -/
def GetRootHash (mt : MerkleTree) : Option Bytes :=
  match mt.MerkleNodes with
  | [] => none
  | _ :: _ =>
    match mt.MerkleNodes[mt.MerkleNodes.length - 1]? with
    | none => none
    | some top =>
      match top[0]? with
      | none => none
      | some node => some node.Hash

/-- The inner loop of `BuildMerkleTree` (`for i := 0; i < len(currentLevel); i += 2`):
the nodes at `i` and `i+1` are consumed together; a last node without a right neighbour
is combined with itself. -/
def combineLevel (H : HashFn) : List MerkleNode → List MerkleNode
  | [] => []
  | [left] => [{ Hash := H.Sum256 (left.Hash ++ left.Hash) }]
  | left :: right :: rest =>
    { Hash := H.Sum256 (left.Hash ++ right.Hash) } :: combineLevel H rest

/-- The outer loop of `BuildMerkleTree`
(`for level := 0; len(mt.MerkleNodes[level]) > 1; level++`). -/
def buildLoop (H : HashFn) : Nat → Nat → List (List MerkleNode) → Option (List (List MerkleNode))
  | 0, _, _ => none
  | fuel + 1, level, nodes =>
    match nodes[level]? with
    | none => none
    | some currentLevel =>
      if currentLevel.length > 1 then
        buildLoop H fuel (level + 1) (nodes ++ [combineLevel H currentLevel])
      else
        some nodes

/-- The method `BuildMerkleTree` with explicit fuel for its outer loop. The result is the
receiver after the call and the returned error. -/
def BuildMerkleTreeFuel (H : HashFn) (fuel : Nat) (mt : MerkleTree) :
    Option (MerkleTree × Option MerkleError) :=
  match mt.MerkleNodes with
  | [] => some (mt, some MerkleError.noLeaves)
  | level0 :: _ =>
    if level0.length = 0 then
      some (mt, some MerkleError.noLeaves)
    else
      match buildLoop H fuel 0 [level0] with
      | none => none
      | some nodes => some ({ MerkleNodes := nodes, IsTreeBuilt := true }, none)

/-- Fuel that always suffices for the outer loop: every pass at least halves the length
of the level it reads (see `build_spec`). -/
def buildFuel (mt : MerkleTree) : Nat :=
  (mt.MerkleNodes.headD []).length

/-- The method `BuildMerkleTree`. -/
def BuildMerkleTree (H : HashFn) (mt : MerkleTree) : Option (MerkleTree × Option MerkleError) :=
  BuildMerkleTreeFuel H (buildFuel mt) mt

/-- One pass of the loop of `GenerateMerkleProofForSegment`
(`for level := 0; level < len(mt.MerkleNodes)-1; level++`), on the pair of the proof so far
and the running `segmentIndex`. The index is non-negative here, so it is a `Nat`, and the Go
test `segmentIndex == len(nodesAtLevel)-1` on `int` is `segmentIndex + 1 = len(nodesAtLevel)`. -/
def proofStep (nodes : List (List MerkleNode)) (st : List ProofPart × Nat) (level : Nat) :
    List ProofPart × Nat :=
  let proof := st.1
  let segmentIndex := st.2
  let nodesAtLevel := nodes.getD level []
  let isRight := decide (segmentIndex % 2 = 0)
  let siblingIndex := if segmentIndex % 2 = 0 then segmentIndex + 1 else segmentIndex - 1
  let proof1 :=
    if siblingIndex < nodesAtLevel.length then
      match nodesAtLevel[siblingIndex]? with
      | some sibling => proof ++ [{ Hash := sibling.Hash, IsRight := isRight }]
      | none => proof
    else if segmentIndex + 1 = nodesAtLevel.length then
      match nodesAtLevel[segmentIndex]? with
      | some node => proof ++ [{ Hash := node.Hash, IsRight := false }]
      | none => proof
    else
      proof
  (proof1, segmentIndex / 2)

/-- The method `GenerateMerkleProofForSegment`. The receiver is a pointer that may be
`nil` (`none`). The result is the pair of the returned slice (`none` for `nil`) and the
returned error. -/
def GenerateMerkleProofForSegment (mt : Option MerkleTree) (segmentIndex : Int) :
    Option (List ProofPart) × Option MerkleError :=
  match mt with
  | none => (none, some MerkleError.notConstructed)
  | some t =>
    match t.MerkleNodes with
    | [] => (none, some MerkleError.notConstructed)
    | level0 :: _ =>
      if level0.length = 0 then
        (none, some MerkleError.notConstructed)
      else if segmentIndex < 0 ∨ segmentIndex ≥ (level0.length : Int) then
        (none, some MerkleError.indexOutOfBounds)
      else
        match level0[segmentIndex.toNat]? with
        | none => (none, none)
        | some leaf =>
          let proof : List ProofPart := [{ Hash := leaf.Hash, IsRight := false }]
          let st := (List.range (t.MerkleNodes.length - 1)).foldl (proofStep t.MerkleNodes)
            (proof, segmentIndex.toNat)
          (some st.1, none)

/-- The memory of byte arrays: the backing array with index `i` is the `i`-th list. -/
abbrev Memory := List Bytes

/-- A Go slice of bytes: the window of `len` bytes at offset `off` of the backing array
`array`, with room for `cap` bytes from `off`. -/
structure Slice where
  array : Nat
  off : Nat
  len : Nat
  cap : Nat
deriving DecidableEq

/-- A `ProofPart` as `VerifyMerkleProof` receives it: `Hash` is a slice into the memory. -/
structure ProofPartRef where
  Hash : Slice
  IsRight : Bool
deriving DecidableEq

/-- The bytes a slice shows. -/
def readSlice (mem : Memory) (s : Slice) : Bytes :=
  ((mem.getD s.array []).drop s.off).take s.len

/-- The memory with `data` written into the backing array `array` from position `pos`. -/
def writeAt (mem : Memory) (array pos : Nat) (data : Bytes) : Memory :=
  mem.set array
    ((mem.getD array []).take pos ++ data ++ (mem.getD array []).drop (pos + data.length))

/-- The Go built-in `append(s, xs...)`: when `len(s) + len(xs) ≤ cap(s)` the bytes of `xs`
are written into the backing array of `s` behind its window and the result shares that
array; otherwise a new backing array is allocated, at the end of the memory. The capacity
of a new array is at least its length; the model takes the length, the result being
handed to the hash and dropped. -/
def goAppend (mem : Memory) (s xs : Slice) : Memory × Slice :=
  if s.len + xs.len ≤ s.cap then
    (writeAt mem s.array (s.off + s.len) (readSlice mem xs),
      { array := s.array, off := s.off, len := s.len + xs.len, cap := s.cap })
  else
    (mem ++ [readSlice mem s ++ readSlice mem xs],
      { array := mem.length, off := 0, len := s.len + xs.len, cap := s.len + xs.len })

/-- The loop of `VerifyMerkleProof` over `proof[1:]`; it stops with an error at the first
part whose hash is not `sha256.Size` bytes long. Each pass appends, hashes what the
appended slice shows, and goes on with `combinedHash[:]`, a slice of a new array of
`sha256.Size` bytes. The result is the memory after the loop and the error or the last
`currentHash`. -/
def verifyLoop (H : HashFn) :
    Memory → Slice → List ProofPartRef → Memory × Except MerkleError Slice
  | mem, currentHash, [] => (mem, Except.ok currentHash)
  | mem, currentHash, part :: rest =>
    if part.Hash.len ≠ Size then
      (mem, Except.error MerkleError.invalidHashSize)
    else
      let appended :=
        if part.IsRight then goAppend mem currentHash part.Hash
        else goAppend mem part.Hash currentHash
      let combinedHash := H.Sum256 (readSlice appended.1 appended.2)
      verifyLoop H (appended.1 ++ [combinedHash])
        { array := appended.1.length, off := 0, len := Size, cap := Size } rest

/-- The function `VerifyMerkleProof` on slices into a memory. The result is the returned
pair and the memory after the call. -/
def VerifyMerkleProofMem (H : HashFn) (mem : Memory) (rootHash : Slice)
    (proof : List ProofPartRef) : (Bool × Option MerkleError) × Memory :=
  match proof with
  | [] => ((false, some MerkleError.invalidProof), mem)
  | first :: rest =>
    if first.Hash.len ≠ Size then
      ((false, some MerkleError.invalidProof), mem)
    else
      match verifyLoop H mem first.Hash rest with
      | (after, Except.error e) => ((false, some e), after)
      | (after, Except.ok currentHash) =>
        ((decide (readSlice after currentHash = readSlice after rootHash), none), after)

/-- The slice that shows all of the backing array `array`, which holds `bytes`: no spare
capacity. -/
def tightSlice (array : Nat) (bytes : Bytes) : Slice :=
  { array := array, off := 0, len := bytes.length, cap := bytes.length }

/-- The parts of a proof as slices, part `j` showing all of the backing array `k + j`. -/
def tightRefs : Nat → List ProofPart → List ProofPartRef
  | _, [] => []
  | k, part :: rest =>
    { Hash := tightSlice k part.Hash, IsRight := part.IsRight } :: tightRefs (k + 1) rest

/-- The memory that holds the root digest in array 0 and the digest of part `j` of the
proof in array `j + 1`. -/
def tightMemory (rootHash : Bytes) (proof : List ProofPart) : Memory :=
  rootHash :: proof.map (fun part => part.Hash)

/-- The function `VerifyMerkleProof` called with digests that each fill a backing array of
their own, as `sha256.Sum256` and `GenerateMerkleProofForSegment` hand them out. -/
def VerifyMerkleProof (H : HashFn) (rootHash : Bytes) (proof : List ProofPart) :
    Bool × Option MerkleError :=
  (VerifyMerkleProofMem H (tightMemory rootHash proof) (tightSlice 0 rootHash)
    (tightRefs 1 proof)).1

/-! ## Persistence -/

/-- JSON documents, with integers for numbers. -/
inductive Json where
  | null : Json
  | bool (b : Bool) : Json
  | number (n : Int) : Json
  | str (s : String) : Json
  | arr (elems : List Json) : Json
  | obj (members : List (String × Json)) : Json

/-- What a file holds: JSON text, given by the document it denotes, or other bytes. -/
inductive FileData where
  | json (doc : Json)
  | notJson

/-- The errors of the storage functions and of `json.Unmarshal`, by kind. -/
inductive StorageError where
  | writeFailed
  | readFailed
  | syntaxError
  | typeError
  | base64Error
deriving DecidableEq

/-- The file store: the content of each path that names a file, and whether a write to a
path succeeds. -/
structure Disk where
  files : String → Option FileData
  writable : String → Bool

/-- The result of a call that returns an `error` and fills a value: `ok` for a `nil` error
with the value filled in, `error` for a non-nil error (the value is then unspecified), and
`unmodelled` for inputs outside the modelled fragment of the library. -/
inductive Loaded (α : Type) where
  | ok (value : α)
  | error (e : StorageError)
  | unmodelled
deriving DecidableEq

/-- Apply a function to a filled value. -/
def Loaded.map {α β : Type} (f : α → β) : Loaded α → Loaded β
  | Loaded.ok a => Loaded.ok (f a)
  | Loaded.error e => Loaded.error e
  | Loaded.unmodelled => Loaded.unmodelled

/-- Continue with a filled value. -/
def Loaded.andThen {α β : Type} (r : Loaded α) (f : α → Loaded β) : Loaded β :=
  match r with
  | Loaded.ok a => f a
  | Loaded.error e => Loaded.error e
  | Loaded.unmodelled => Loaded.unmodelled

/-- The library function `ioutil.WriteFile`: on success the file holds `data`; on failure
nothing is said about the store. -/
def WriteFile (filePath : String) (data : FileData) (disk : Disk) : Except StorageError Disk :=
  if disk.writable filePath then
    Except.ok
      { files := fun p => if p = filePath then some data else disk.files p,
        writable := disk.writable }
  else
    Except.error StorageError.writeFailed

/-- The library function `ioutil.ReadFile`. -/
def ReadFile (filePath : String) (disk : Disk) : Except StorageError FileData :=
  match disk.files filePath with
  | some data => Except.ok data
  | none => Except.error StorageError.readFailed

/-- The alphabet of `base64.StdEncoding`. -/
def base64Alphabet : List Char :=
  "ABCDEFGHIJKLMNOPQRSTUVWXYZabcdefghijklmnopqrstuvwxyz0123456789+/".toList

/-- The padding character of `base64.StdEncoding`. -/
def padChar : Char := '='

/-- The character of a six-bit value. -/
def encSextet (n : Nat) : Char :=
  base64Alphabet.getD n 'A'

/-- The six-bit value of a character of the alphabet. -/
def decSextet (c : Char) : Option Nat :=
  let i := base64Alphabet.indexOf c
  if i < 64 then some i else none

/-- The byte of a number, modulo 256. -/
def toByte (n : Nat) : Byte :=
  ⟨n % 256, Nat.mod_lt n (by decide)⟩

/-- The library function `base64.StdEncoding.EncodeToString`: three bytes give four
characters; a last group of one or two bytes is padded. -/
def base64Encode : Bytes → List Char
  | [] => []
  | [a] => [encSextet (a.val / 4), encSextet (a.val % 4 * 16), padChar, padChar]
  | [a, b] =>
    [encSextet (a.val / 4), encSextet (a.val % 4 * 16 + b.val / 16),
      encSextet (b.val % 16 * 4), padChar]
  | a :: b :: c :: rest =>
    encSextet (a.val / 4) :: encSextet (a.val % 4 * 16 + b.val / 16) ::
      encSextet (b.val % 16 * 4 + c.val / 64) :: encSextet (c.val % 64) :: base64Encode rest

/-- Decoding of a text without line breaks, group by group; padding is accepted in the
last group only, and the unused low bits of a padded group are not checked. -/
def decodeGroups : List Char → Option Bytes
  | [] => some []
  | c0 :: c1 :: c2 :: c3 :: rest =>
    if c3 = padChar then
      if rest ≠ [] then none
      else if c2 = padChar then
        match decSextet c0, decSextet c1 with
        | some s0, some s1 => some [toByte (s0 * 4 + s1 / 16)]
        | _, _ => none
      else
        match decSextet c0, decSextet c1, decSextet c2 with
        | some s0, some s1, some s2 =>
          some [toByte (s0 * 4 + s1 / 16), toByte (s1 % 16 * 16 + s2 / 4)]
        | _, _, _ => none
    else
      match decSextet c0, decSextet c1, decSextet c2, decSextet c3, decodeGroups rest with
      | some s0, some s1, some s2, some s3, some tail =>
        some (toByte (s0 * 4 + s1 / 16) :: toByte (s1 % 16 * 16 + s2 / 4) ::
          toByte (s2 % 4 * 64 + s3) :: tail)
      | _, _, _, _, _ => none
  | _ => none

/-- Whether a character is kept by the decoder: line feeds and carriage returns are
skipped. -/
def keptByDecoder (c : Char) : Bool :=
  !(c == Char.ofNat 10 || c == Char.ofNat 13)

/-- The library function `base64.StdEncoding.Decode`; `none` is an error. -/
def base64Decode (text : List Char) : Option Bytes :=
  decodeGroups (text.filter keptByDecoder)

/-- Marshalling of a slice: `null` for an empty one, as for the nil slice of a zero
value, and an array otherwise. -/
def marshalSlice {α : Type} (f : α → Json) : List α → Json
  | [] => Json.null
  | a :: rest => Json.arr ((a :: rest).map f)

/-- Marshalling of a `[]byte`: `null` for an empty one and the base64 text otherwise. -/
def marshalBytes : Bytes → Json
  | [] => Json.null
  | a :: rest => Json.str (String.mk (base64Encode (a :: rest)))

/-- Marshalling of a `*MerkleNode`: the struct has the one field `Hash`, tagged `hash`. -/
def marshalNode (node : MerkleNode) : Json :=
  Json.obj [("hash", marshalBytes node.Hash)]

/-- The library function `json.Marshal` on a `*MerkleTree`: the fields `MerkleNodes`,
tagged `merkleNodes`, and `IsTreeBuilt`, tagged `isTreeBuilt`, in this order. On this
type it returns no error. -/
def Marshal (mt : MerkleTree) : Json :=
  Json.obj
    [("merkleNodes", marshalSlice (marshalSlice marshalNode) mt.MerkleNodes),
      ("isTreeBuilt", Json.bool mt.IsTreeBuilt)]

/-- Unmarshalling of the elements of an array, in order. -/
def decodeAll {α : Type} (f : Json → Loaded α) : List Json → Loaded (List α)
  | [] => Loaded.ok []
  | x :: rest =>
    match f x with
    | Loaded.ok a =>
      match decodeAll f rest with
      | Loaded.ok tail => Loaded.ok (a :: tail)
      | Loaded.error e => Loaded.error e
      | Loaded.unmodelled => Loaded.unmodelled
    | Loaded.error e => Loaded.error e
    | Loaded.unmodelled => Loaded.unmodelled

/-- Unmarshalling into an empty slice: `null` gives the nil slice, an array its elements,
any other document a type error. -/
def decodeSlice {α : Type} (f : Json → Loaded α) : Json → Loaded (List α)
  | Json.null => Loaded.ok []
  | Json.arr elems => decodeAll f elems
  | _ => Loaded.error StorageError.typeError

/-- Unmarshalling into a `[]byte`: `null` gives the nil slice, a string its base64
decoding or an error; an array is outside the model; any other document is a type
error. -/
def decodeBytes : Json → Loaded Bytes
  | Json.null => Loaded.ok []
  | Json.str s =>
    match base64Decode s.data with
    | some bytes => Loaded.ok bytes
    | none => Loaded.error StorageError.base64Error
  | Json.arr _ => Loaded.unmodelled
  | _ => Loaded.error StorageError.typeError

/-- Unmarshalling into a nil `*MerkleNode`: an object allocates a node and fills `Hash`
from the member `hash`; `null` (a nil pointer) and objects with other or repeated members
are outside the model; any other document is a type error. -/
def decodeNode : Json → Loaded MerkleNode
  | Json.null => Loaded.unmodelled
  | Json.obj [] => Loaded.ok (newMerkleNode [])
  | Json.obj [(key, value)] =>
    if key = "hash" then (decodeBytes value).map newMerkleNode else Loaded.unmodelled
  | Json.obj _ => Loaded.unmodelled
  | _ => Loaded.error StorageError.typeError

/-- Unmarshalling of the member `merkleNodes` into the field `MerkleNodes` of `mt`. An
array read into a field that already has levels is outside the model. -/
def applyLevels (mt : MerkleTree) (value : Json) : Loaded MerkleTree :=
  match value with
  | Json.arr elems =>
    if mt.MerkleNodes = [] then
      (decodeAll (decodeSlice decodeNode) elems).map
        (fun levels => { MerkleNodes := levels, IsTreeBuilt := mt.IsTreeBuilt })
    else
      Loaded.unmodelled
  | Json.null => Loaded.ok { MerkleNodes := [], IsTreeBuilt := mt.IsTreeBuilt }
  | _ => Loaded.error StorageError.typeError

/-- Unmarshalling of the member `isTreeBuilt` into the field `IsTreeBuilt` of `mt`: a
boolean is stored, `null` changes nothing, any other document is a type error. -/
def applyFlag (mt : MerkleTree) (value : Json) : Loaded MerkleTree :=
  match value with
  | Json.bool b => Loaded.ok { MerkleNodes := mt.MerkleNodes, IsTreeBuilt := b }
  | Json.null => Loaded.ok mt
  | _ => Loaded.error StorageError.typeError

/-- The library function `json.Unmarshal` into a `*MerkleTree`: `null` changes nothing,
an object fills the fields named by its members, any other document is a type error.
Objects with members other than the two tags, or with a tag twice, are outside the
model. -/
def Unmarshal (doc : Json) (mt : MerkleTree) : Loaded MerkleTree :=
  match doc with
  | Json.null => Loaded.ok mt
  | Json.obj [] => Loaded.ok mt
  | Json.obj [(key, value)] =>
    if key = "merkleNodes" then applyLevels mt value
    else if key = "isTreeBuilt" then applyFlag mt value
    else Loaded.unmodelled
  | Json.obj [(key1, value1), (key2, value2)] =>
    if key1 = "merkleNodes" ∧ key2 = "isTreeBuilt" then
      (applyLevels mt value1).andThen (fun t => applyFlag t value2)
    else if key1 = "isTreeBuilt" ∧ key2 = "merkleNodes" then
      (applyFlag mt value1).andThen (fun t => applyLevels t value2)
    else
      Loaded.unmodelled
  | Json.obj _ => Loaded.unmodelled
  | _ => Loaded.error StorageError.typeError

/-- The method `SaveMerkleTree`: the tree is marshalled and written to `filePath`. The
result is the error or the store after the call. -/
def SaveMerkleTree (mt : MerkleTree) (filePath : String) (disk : Disk) :
    Except StorageError Disk :=
  let data := FileData.json (Marshal mt)
  WriteFile filePath data disk

/-- The method `LoadMerkleTree`: the file at `filePath` is read and unmarshalled into the
receiver. -/
def LoadMerkleTree (mt : MerkleTree) (filePath : String) (disk : Disk) : Loaded MerkleTree :=
  match ReadFile filePath disk with
  | Except.error e => Loaded.error e
  | Except.ok data =>
    match data with
    | FileData.notJson => Loaded.error StorageError.syntaxError
    | FileData.json doc => Unmarshal doc mt

/-! ## A concrete hash for evaluating the definitions -/

/-- The `k` low base-256 digits of `n`, least significant first. -/
def toBytes (k n : Nat) : Bytes :=
  (List.range k).map (fun j => (⟨n / 256 ^ j % 256, Nat.mod_lt _ (by decide)⟩ : Byte))

/-- A polynomial checksum of a byte string. -/
def toySum (data : Bytes) : Nat :=
  data.foldl (fun acc b => (acc * 257 + b.val + 1) % 256 ^ 32) 0

/-- A small stand-in for SHA-256 with 32-byte results, used only to evaluate the
definitions on concrete inputs. -/
def toyHash : HashFn where
  Sum256 := fun data => toBytes 32 (toySum data)
  size_eq := fun data => by simp [toBytes, Size]

/-- Five one-byte segments. -/
def sampleLeaves : List Bytes := [[1], [2], [3], [4], [5]]

/-- Level 0 of the tree of `sampleLeaves` under `toyHash`. -/
def sampleLevel0 : List MerkleNode :=
  sampleLeaves.map (fun d => newMerkleNode (toyHash.Sum256 d))

/-- The tree of `sampleLeaves` under `toyHash` after a build: levels of 5, 3, 2 and 1
nodes. -/
def sampleBuilt : MerkleTree :=
  let level1 := combineLevel toyHash sampleLevel0
  let level2 := combineLevel toyHash level1
  let level3 := combineLevel toyHash level2
  { MerkleNodes := [sampleLevel0, level1, level2, level3], IsTreeBuilt := true }

/-- The proof generated for the leaf at index 2 of `sampleBuilt`; an empty list stands for
a failed generation. -/
def sampleProof : List ProofPart :=
  (GenerateMerkleProofForSegment (some sampleBuilt) 2).1.getD []

/-- The root digest of `sampleBuilt`; an empty digest stands for an undefined root. -/
def sampleRoot : Bytes :=
  (GetRootHash sampleBuilt).getD []

/-- The path of a tree record, as `RequestProof` and `UploadFile` form it for the file
name `report`. -/
def samplePath : String := "uploads/report/merkleTree.json"

/-- A store without files in which every write succeeds. -/
def emptyDisk : Disk :=
  { files := fun _ => none, writable := fun _ => true }

/-- The store `emptyDisk` after `mt` has been saved at `samplePath`. -/
def savedDisk (mt : MerkleTree) : Disk :=
  { files := fun p => if p = samplePath then some (FileData.json (Marshal mt)) else none,
    writable := fun _ => true }

/-- The record of a tree with one level of one node, the digest given by its base64
text. -/
def singleNodeRecord (hashText : String) (flag : Bool) : Json :=
  Json.obj
    [("merkleNodes", Json.arr [Json.arr [Json.obj [("hash", Json.str hashText)]]]),
      ("isTreeBuilt", Json.bool flag)]

/-- A store whose file at `samplePath` is a record with the one-byte digest `[1]`, in
base64 `AQ==`. -/
def corruptDisk : Disk :=
  { files := fun p =>
      if p = samplePath then some (FileData.json (singleNodeRecord "AQ==" false)) else none,
    writable := fun _ => true }

/-- A record whose member `merkleNodes` is the number 5. -/
def numberRecord : Json :=
  Json.obj [("merkleNodes", Json.number 5)]

/-- A store whose file at `samplePath` is `numberRecord`. -/
def numberDisk : Disk :=
  { files := fun p => if p = samplePath then some (FileData.json numberRecord) else none,
    writable := fun _ => true }

/-- The tree of the two segments `[1]` and `[2]` under `toyHash` after a build. -/
def twoLeafBuilt : MerkleTree :=
  let level0 := [newMerkleNode (toyHash.Sum256 [1]), newMerkleNode (toyHash.Sum256 [2])]
  { MerkleNodes := [level0, combineLevel toyHash level0], IsTreeBuilt := true }

/-- The root digest of `twoLeafBuilt`. -/
def twoLeafRoot : Bytes :=
  toyHash.Sum256 (toyHash.Sum256 [1] ++ toyHash.Sum256 [2])

/-! ## Specification-side notions -/

/-- The recombination step of the design text (4.3): `current := Hash(current ++ s.digest)`
when `s` is marked RIGHT and `current := Hash(s.digest ++ current)` when it is marked
LEFT. -/
def recombine (H : HashFn) (current : Bytes) (s : ProofPart) : Bytes :=
  if s.IsRight = true then H.Sum256 (current ++ s.Hash) else H.Sum256 (s.Hash ++ current)

/-- A buffer of 128 bytes that a caller cuts into digests: the digest of `[1]` in bytes 0 to
31, the digest of `[3]` in bytes 32 to 63, and 64 unused bytes. -/
def sharedBuffer : Bytes :=
  toyHash.Sum256 [1] ++ toyHash.Sum256 [3] ++ List.replicate 64 0

/-- The root that the recombination rule gives for the digest of `[1]` followed by the
digests of `[2]` and of `[3]`, both marked RIGHT. -/
def sharedRoot : Bytes :=
  List.foldl (recombine toyHash) (toyHash.Sum256 [1])
    [{ Hash := toyHash.Sum256 [2], IsRight := true },
      { Hash := toyHash.Sum256 [3], IsRight := true }]

/-- A memory of three backing arrays: the buffer, the digest of `[2]` and the root. -/
def sharedMemory : Memory :=
  [sharedBuffer, toyHash.Sum256 [2], sharedRoot]

/-- A proof of three parts whose first and third digests are `buf[0:32]` and `buf[32:64]`
of the buffer, so that the first has capacity 128 and the third 96; the second fills an
array of its own. -/
def sharedProof : List ProofPartRef :=
  [{ Hash := { array := 0, off := 0, len := 32, cap := 128 }, IsRight := false },
    { Hash := { array := 1, off := 0, len := 32, cap := 32 }, IsRight := true },
    { Hash := { array := 0, off := 32, len := 32, cap := 96 }, IsRight := true }]

/-- The slice that shows the root in `sharedMemory`. -/
def sharedRootSlice : Slice :=
  { array := 2, off := 0, len := 32, cap := 32 }


/-- A list of levels in the shape the build loop leaves behind: every level but the last
has at least two nodes and is followed by its combination; the last has one node. -/
def WellBuilt (H : HashFn) : List (List MerkleNode) → Prop
  | [] => False
  | [top] => top.length = 1
  | cur :: next :: rest =>
    1 < cur.length ∧ next = combineLevel H cur ∧ WellBuilt H (next :: rest)

/-- Every node of every level carries a digest of `sha256.Size` bytes. -/
def DigestsSized (levels : List (List MerkleNode)) : Prop :=
  ∀ lvl ∈ levels, ∀ node ∈ lvl, node.Hash.length = Size

/-- The tree obtained from the empty tree by one `AddLeaf` call per element of `datas`. -/
def treeOfLeaves (H : HashFn) (datas : List Bytes) : MerkleTree :=
  datas.foldl (AddLeaf H) emptyTree

/-- The loop of the verifier read on contents: what `verifyLoopPure` computes when no `append`
writes in place (`verifyLoop_no_room`). -/
def verifyLoopPure (H : HashFn) (currentHash : Bytes) : List ProofPart → Except MerkleError Bytes
  | [] => Except.ok currentHash
  | part :: rest =>
    if part.Hash.length ≠ Size then
      Except.error MerkleError.invalidHashSize
    else
      let combinedHash :=
        if part.IsRight then H.Sum256 (currentHash ++ part.Hash)
        else H.Sum256 (part.Hash ++ currentHash)
      verifyLoopPure H combinedHash rest

/-- The verifier read on contents: what `VerifyMerkleProofMem` returns when no `append`
writes in place (`VerifyMerkleProofMem_no_room`, `VerifyMerkleProof_eq`). -/
def VerifyPure (H : HashFn) (rootHash : Bytes) (proof : List ProofPart) :
    Bool × Option MerkleError :=
  match proof with
  | [] => (false, some MerkleError.invalidProof)
  | first :: rest =>
    if first.Hash.length ≠ Size then
      (false, some MerkleError.invalidProof)
    else
      match verifyLoopPure H first.Hash rest with
      | Except.error e => (false, some e)
      | Except.ok currentHash => (decide (currentHash = rootHash), none)

/-- A fault of the member `hash`: a document of the wrong JSON type, or a string that is
not base64 text. -/
def hashFault : Json → Bool
  | Json.null => false
  | Json.str s => (base64Decode s.data).isNone
  | Json.arr _ => false
  | _ => true

/-- A fault of a node: a document of the wrong JSON type, or a fault of its member
`hash`. -/
def nodeFault : Json → Bool
  | Json.null => false
  | Json.obj members => members.any (fun m => decide (m.1 = "hash") && hashFault m.2)
  | _ => true

/-- A fault of a slice: a document of the wrong JSON type, or a fault of an element. -/
def sliceFault (elemFault : Json → Bool) : Json → Bool
  | Json.null => false
  | Json.arr elems => elems.any elemFault
  | _ => true

/-- A fault of the member `isTreeBuilt`: a document of the wrong JSON type. -/
def flagFault : Json → Bool
  | Json.null => false
  | Json.bool _ => false
  | _ => true

/-- A structurally invalid record: a document of the wrong JSON type, or a member
`merkleNodes` with a fault in it, in a level of it or in a node of a level, or a member
`isTreeBuilt` with a fault. The width of a digest is no fault. -/
def recordFault : Json → Bool
  | Json.null => false
  | Json.obj members =>
    members.any (fun m =>
      (decide (m.1 = "merkleNodes") && sliceFault (sliceFault nodeFault) m.2) ||
        (decide (m.1 = "isTreeBuilt") && flagFault m.2))
  | _ => true

/-- The member `hash` is inside the modelled fragment. -/
def hashCovered : Json → Bool
  | Json.arr _ => false
  | _ => true

/-- A node is inside the modelled fragment. -/
def nodeCovered : Json → Bool
  | Json.null => false
  | Json.obj [] => true
  | Json.obj [(key, value)] => decide (key = "hash") && hashCovered value
  | Json.obj _ => false
  | _ => true

/-- A slice is inside the modelled fragment. -/
def sliceCovered (elemCovered : Json → Bool) : Json → Bool
  | Json.arr elems => elems.all elemCovered
  | _ => true

/-- A document is inside the modelled fragment of `json.Unmarshal` into a `*MerkleTree`. -/
def recordCovered : Json → Bool
  | Json.obj [] => true
  | Json.obj [(key, value)] =>
    (decide (key = "merkleNodes") && sliceCovered (sliceCovered nodeCovered) value) ||
      decide (key = "isTreeBuilt")
  | Json.obj [(key1, value1), (key2, value2)] =>
    (decide (key1 = "merkleNodes") && decide (key2 = "isTreeBuilt") &&
        sliceCovered (sliceCovered nodeCovered) value1) ||
      (decide (key1 = "isTreeBuilt") && decide (key2 = "merkleNodes") &&
        sliceCovered (sliceCovered nodeCovered) value2)
  | Json.obj _ => false
  | _ => true

/-- A decoder agrees with a notion of fault: a fault excludes success, and inside the
modelled fragment the decoder returns an error on a fault and succeeds otherwise. -/
def Agrees {α : Type} (f : Json → Loaded α) (covered fault : Json → Bool) : Prop :=
  ∀ x : Json,
    (fault x = true → ∀ a, f x ≠ Loaded.ok a) ∧
    (covered x = true →
      (fault x = true → ∃ e, f x = Loaded.error e) ∧
      (fault x = false → ∃ a, f x = Loaded.ok a))

/-- A slice lies inside the memory: its backing array exists and holds its window. -/
def SliceOk (mem : Memory) (s : Slice) : Prop :=
  s.array < mem.length ∧ s.off + s.len ≤ (mem.getD s.array []).length

/-- A slice has no room for a digest behind its window: an `append` of `sha256.Size`
bytes to it allocates. -/
def NoRoom (s : Slice) : Prop :=
  s.cap < s.len + Size

/-- The contents of a part of a proof held in memory. -/
def partContent (mem : Memory) (part : ProofPartRef) : ProofPart :=
  { Hash := readSlice mem part.Hash, IsRight := part.IsRight }

/-- The byte strings the loop of `VerifyMerkleProof` hands to the hash, in order, when it
starts from `currentHash`. -/
def verifyInputs (H : HashFn) (currentHash : Bytes) : List ProofPart → List Bytes
  | [] => []
  | part :: rest =>
    let input := if part.IsRight then currentHash ++ part.Hash else part.Hash ++ currentHash
    input :: verifyInputs H (H.Sum256 input) rest

/-- The byte strings `VerifyMerkleProof` hands to the hash on a proof. -/
def verifierInputs (H : HashFn) : List ProofPart → List Bytes
  | [] => []
  | first :: rest => verifyInputs H first.Hash rest

/-- The byte strings the inner loop of `BuildMerkleTree` hands to the hash on one level. -/
def combineInputs : List MerkleNode → List Bytes
  | [] => []
  | [left] => [left.Hash ++ left.Hash]
  | left :: right :: rest => (left.Hash ++ right.Hash) :: combineInputs rest

/-- The byte strings hashed to derive the upper levels of a list of levels: the inputs of
every level but the last. -/
def buildInputs : List (List MerkleNode) → List Bytes
  | [] => []
  | [_] => []
  | cur :: next :: rest => combineInputs cur ++ buildInputs (next :: rest)

/-- The hash has no collision among the listed inputs. A hash with 32-byte results cannot
be injective on all byte strings, so collision-freeness is stated for the inputs a
computation feeds to it. -/
def CollisionFreeOn (H : HashFn) (inputs : List Bytes) : Prop :=
  ∀ x ∈ inputs, ∀ y ∈ inputs, H.Sum256 x = H.Sum256 y → x = y

instance (H : HashFn) (inputs : List Bytes) : Decidable (CollisionFreeOn H inputs) := by
  unfold CollisionFreeOn
  infer_instance

/-- The proof with the digest of its element `j` replaced by `d`; orientations and all
other elements stay. -/
def replaceHash : List ProofPart → Nat → Bytes → List ProofPart
  | [], _, _ => []
  | part :: rest, 0, d => { Hash := d, IsRight := part.IsRight } :: rest
  | part :: rest, j + 1, d => part :: replaceHash rest j d

/-- The parts one pass of the generation loop appends when it reads `nodesAtLevel` at
index `segmentIndex`. -/
def levelParts (nodesAtLevel : List MerkleNode) (segmentIndex : Nat) : List ProofPart :=
  (proofStep [nodesAtLevel] ([], segmentIndex) 0).1

/-- The parts the generation loop appends over a list of levels, the last of which it
does not read. -/
def pathParts : List (List MerkleNode) → Nat → List ProofPart
  | [], _ => []
  | [_], _ => []
  | cur :: next :: rest, idx => levelParts cur idx ++ pathParts (next :: rest) (idx / 2)

/-- The tree states reachable from the empty tree by calls of `AddLeaf` and
`BuildMerkleTree`; a build counts whatever error it returns. -/
inductive Reachable (H : HashFn) : MerkleTree → Prop where
  | empty : Reachable H emptyTree
  | addLeaf (t : MerkleTree) (data : Bytes) : Reachable H t → Reachable H (AddLeaf H t data)
  | build (t after : MerkleTree) (err : Option MerkleError) :
      Reachable H t → BuildMerkleTree H t = some (after, err) → Reachable H after

/-- The topmost level of the tree has exactly one node. -/
def TopSingle (t : MerkleTree) : Prop :=
  ∃ node, t.MerkleNodes.getLast? = some [node]

/-- The unbuilt tree of the one segment `[1]` under `toyHash`. -/
def oneLeafTree : MerkleTree :=
  AddLeaf toyHash emptyTree [1]

/-- The tree `oneLeafTree` after a build and one more `AddLeaf`, of the segment `[2]`. -/
def builtThenGrown : MerkleTree :=
  AddLeaf toyHash { MerkleNodes := oneLeafTree.MerkleNodes, IsTreeBuilt := true } [2]

/-! ## Lemmas on the build -/

theorem combineLevel_length (H : HashFn) :
    ∀ l : List MerkleNode, (combineLevel H l).length = (l.length + 1) / 2
  | [] => by simp [combineLevel]
  | [_] => by simp [combineLevel]
  | _ :: _ :: rest => by
    simp only [combineLevel, List.length_cons, combineLevel_length H rest]
    omega

theorem combineLevel_sized (H : HashFn) :
    ∀ (l : List MerkleNode), ∀ node ∈ combineLevel H l, node.Hash.length = Size
  | [], node, h => by simp [combineLevel] at h
  | [_], node, h => by
    simp only [combineLevel, List.mem_singleton] at h
    subst h
    exact H.size_eq _
  | _ :: _ :: rest, node, h => by
    simp only [combineLevel, List.mem_cons] at h
    rcases h with h | h
    · subst h
      exact H.size_eq _
    · exact combineLevel_sized H rest node h

theorem buildLoop_spec (H : HashFn) :
    ∀ (fuel : Nat) (pre : List (List MerkleNode)) (cur : List MerkleNode),
      1 ≤ cur.length → cur.length ≤ fuel →
      ∃ ls, buildLoop H fuel pre.length (pre ++ [cur]) = some (pre ++ cur :: ls) ∧
        WellBuilt H (cur :: ls) := by
  intro fuel
  induction fuel with
  | zero => intro pre cur h1 h2; omega
  | succ fuel ih =>
    intro pre cur h1 h2
    have hget : (pre ++ [cur])[pre.length]? = some cur := by simp
    by_cases hlen : cur.length > 1
    · have hnext := combineLevel_length H cur
      obtain ⟨ls, hls, hwb⟩ := ih (pre ++ [cur]) (combineLevel H cur)
        (by omega) (by omega)
      refine ⟨combineLevel H cur :: ls, ?_, ?_⟩
      · have hl : (pre ++ [cur]).length = pre.length + 1 := by simp
        rw [hl] at hls
        simp only [buildLoop, hget, hlen, if_true]
        rw [hls]
        simp
      · exact ⟨hlen, rfl, hwb⟩
    · refine ⟨[], ?_, ?_⟩
      · simp only [buildLoop, hget, hlen, if_false]
      · show cur.length = 1
        omega

theorem WellBuilt_unique (H : HashFn) :
    ∀ (ls ls2 : List (List MerkleNode)) (cur : List MerkleNode),
      WellBuilt H (cur :: ls) → WellBuilt H (cur :: ls2) → ls = ls2
  | [], [], _, _, _ => rfl
  | [], _ :: _, cur, h1, h2 => by
    have a : cur.length = 1 := h1
    have b : 1 < cur.length := h2.1
    omega
  | _ :: _, [], cur, h1, h2 => by
    have a : cur.length = 1 := h2
    have b : 1 < cur.length := h1.1
    omega
  | n1 :: r1, n2 :: r2, cur, h1, h2 => by
    obtain ⟨_, e1, w1⟩ := h1
    obtain ⟨_, e2, w2⟩ := h2
    subst e1
    subst e2
    rw [WellBuilt_unique H r1 r2 _ w1 w2]

/-- What a build of a tree with a non-empty level 0 returns, for any sufficient fuel. -/
theorem build_spec (H : HashFn) (mt : MerkleTree) (level0 : List MerkleNode)
    (upper : List (List MerkleNode)) (hmt : mt.MerkleNodes = level0 :: upper)
    (hne : 1 ≤ level0.length) :
    ∃ ls, WellBuilt H (level0 :: ls) ∧
      ∀ fuel, level0.length ≤ fuel →
        BuildMerkleTreeFuel H fuel mt =
          some ({ MerkleNodes := level0 :: ls, IsTreeBuilt := true }, none) := by
  obtain ⟨ls, _, hwb⟩ := buildLoop_spec H level0.length [] level0 hne (Nat.le_refl _)
  refine ⟨ls, hwb, ?_⟩
  intro fuel hfuel
  obtain ⟨ls2, hls2, hwb2⟩ := buildLoop_spec H fuel [] level0 hne hfuel
  have e : ls2 = ls := WellBuilt_unique H ls2 ls level0 hwb2 hwb
  subst e
  have hz : level0.length ≠ 0 := by omega
  simp only [List.length_nil, List.nil_append] at hls2
  simp only [BuildMerkleTreeFuel, hmt, hz, if_false, hls2]

/-! ## Lemmas on proof generation -/

theorem proofStep_eq (nodes : List (List MerkleNode)) (proof : List ProofPart)
    (idx level : Nat) :
    proofStep nodes (proof, idx) level =
      (proof ++ levelParts (nodes.getD level []) idx, idx / 2) := by
  simp only [proofStep, levelParts, List.getD_cons_zero, List.nil_append]
  split_ifs <;> (try split) <;> simp

theorem foldl_proofStep (suffix : List (List MerkleNode)) :
    ∀ (pre : List (List MerkleNode)) (proof : List ProofPart) (idx : Nat),
      ((List.range' pre.length (suffix.length - 1)).foldl (proofStep (pre ++ suffix))
        (proof, idx)).1 = proof ++ pathParts suffix idx := by
  induction suffix with
  | nil => intro pre proof idx; simp [pathParts]
  | cons cur rest ih =>
    intro pre proof idx
    cases rest with
    | nil => simp [pathParts]
    | cons next rest =>
      have hlen : (cur :: next :: rest).length - 1 = (next :: rest).length - 1 + 1 := by
        simp
      have hget : (pre ++ cur :: next :: rest).getD pre.length [] = cur := by
        rw [List.getD_eq_getElem?_getD, List.getElem?_append_right (Nat.le_refl _)]
        simp
      have hpre : pre ++ cur :: next :: rest = (pre ++ [cur]) ++ (next :: rest) := by
        simp
      have hl : pre.length + 1 = (pre ++ [cur]).length := by simp
      rw [hlen, List.range'_succ, List.foldl_cons, proofStep_eq, hget, hpre, hl, ih]
      simp [pathParts]

theorem levelParts_even_sibling (lvl : List MerkleNode) (idx : Nat) (sibling : MerkleNode)
    (h0 : idx % 2 = 0) (h1 : lvl[idx + 1]? = some sibling) :
    levelParts lvl idx = [{ Hash := sibling.Hash, IsRight := true }] := by
  have hlt : idx + 1 < lvl.length := by
    by_contra hc
    rw [List.getElem?_eq_none (by omega)] at h1
    cases h1
  simp [levelParts, proofStep, h0, hlt, h1]

theorem levelParts_even_last (lvl : List MerkleNode) (idx : Nat) (node : MerkleNode)
    (h0 : idx % 2 = 0) (h1 : lvl[idx + 1]? = none) (h2 : lvl[idx]? = some node) :
    levelParts lvl idx = [{ Hash := node.Hash, IsRight := false }] := by
  have hge : lvl.length ≤ idx + 1 := by
    by_contra hc
    rw [List.getElem?_eq_getElem (by omega)] at h1
    cases h1
  have hlt : idx < lvl.length := by
    by_contra hc
    rw [List.getElem?_eq_none (by omega)] at h2
    cases h2
  have hnot : ¬ idx + 1 < lvl.length := by omega
  have heq : idx + 1 = lvl.length := by omega
  simp [levelParts, proofStep, h0, hnot, heq, h2]

theorem levelParts_odd (lvl : List MerkleNode) (idx : Nat) (sibling : MerkleNode)
    (h0 : idx % 2 = 1) (h1 : lvl[idx - 1]? = some sibling) :
    levelParts lvl idx = [{ Hash := sibling.Hash, IsRight := false }] := by
  have hlt : idx - 1 < lvl.length := by
    by_contra hc
    rw [List.getElem?_eq_none (by omega)] at h1
    cases h1
  simp [levelParts, proofStep, h0, hlt, h1]

theorem combineLevel_getElem? (H : HashFn) :
    ∀ (lvl : List MerkleNode) (i : Nat),
      (combineLevel H lvl)[i]? =
        (lvl[2 * i]?).map (fun left =>
          { Hash := H.Sum256 (left.Hash ++ ((lvl[2 * i + 1]?).getD left).Hash) })
  | [], i => by simp [combineLevel]
  | [a], 0 => by simp [combineLevel]
  | [a], i + 1 => by
    have h : 2 * (i + 1) = (2 * i + 1) + 1 := by omega
    simp [combineLevel, h]
  | a :: b :: rest, 0 => by simp [combineLevel]
  | a :: b :: rest, i + 1 => by
    have h : 2 * (i + 1) = (2 * i) + 1 + 1 := by omega
    have h2 : 2 * (i + 1) + 1 = (2 * i + 1) + 1 + 1 := by omega
    simp only [combineLevel, List.getElem?_cons_succ, h, h2]
    exact combineLevel_getElem? H rest i

theorem mem_of_getElem? {α : Type} (l : List α) (i : Nat) (a : α) (h : l[i]? = some a) :
    a ∈ l := by
  obtain ⟨hlt, rfl⟩ := List.getElem?_eq_some.mp h
  exact List.getElem_mem hlt

/-- One pass of the generation loop emits exactly one part, and recombining it with the
current digest the way the verifier does gives the digest of the parent node. -/
theorem levelParts_parent (H : HashFn) (cur : List MerkleNode) (idx : Nat) (leaf : MerkleNode)
    (hleaf : cur[idx]? = some leaf) :
    ∃ part parent sib, levelParts cur idx = [part] ∧ sib ∈ cur ∧ part.Hash = sib.Hash ∧
      (combineLevel H cur)[idx / 2]? = some parent ∧
      parent.Hash = H.Sum256
        (if part.IsRight then leaf.Hash ++ part.Hash else part.Hash ++ leaf.Hash) := by
  have hlt : idx < cur.length := by
    by_contra hc
    rw [List.getElem?_eq_none (by omega)] at hleaf
    cases hleaf
  rcases Nat.mod_two_eq_zero_or_one idx with h0 | h1
  · have h2 : 2 * (idx / 2) = idx := by omega
    have hc := combineLevel_getElem? H cur (idx / 2)
    rw [h2, hleaf] at hc
    cases hs : cur[idx + 1]? with
    | none =>
      refine ⟨_, _, leaf, levelParts_even_last cur idx leaf h0 hs hleaf,
        mem_of_getElem? _ _ _ hleaf, rfl, hc, ?_⟩
      simp [hs]
    | some s =>
      refine ⟨_, _, s, levelParts_even_sibling cur idx s h0 hs,
        mem_of_getElem? _ _ _ hs, rfl, hc, ?_⟩
      simp [hs]
  · have h2 : 2 * (idx / 2) = idx - 1 := by omega
    have h3 : idx - 1 + 1 = idx := by omega
    have hc := combineLevel_getElem? H cur (idx / 2)
    have hs : cur[idx - 1]? = some (cur[idx - 1]) := List.getElem?_eq_getElem (by omega)
    rw [h2, h3, hleaf, hs] at hc
    refine ⟨_, _, cur[idx - 1], levelParts_odd cur idx _ h1 hs,
      mem_of_getElem? _ _ _ hs, rfl, hc, ?_⟩
    simp

theorem verifyLoopPure_cons_sized (H : HashFn) (c : Bytes) (part : ProofPart)
    (rest : List ProofPart) (h : part.Hash.length = Size) :
    verifyLoopPure H c (part :: rest) =
      verifyLoopPure H (H.Sum256 (if part.IsRight then c ++ part.Hash else part.Hash ++ c))
        rest := by
  simp only [verifyLoopPure, h, ne_eq, not_true_eq_false, if_false]
  split_ifs <;> rfl

/-- On a well-built list of levels whose first level has sized digests, the verifier's loop
run on the generated parts from the digest at `idx` ends on the digest of the single node
of the last level. -/
theorem verifyLoopPure_pathParts (H : HashFn) :
    ∀ (levels : List (List MerkleNode)) (cur : List MerkleNode) (idx : Nat)
      (leaf : MerkleNode),
      WellBuilt H (cur :: levels) → (∀ node ∈ cur, node.Hash.length = Size) →
      cur[idx]? = some leaf →
      ∃ top root, (cur :: levels).getLast? = some top ∧ top = [root] ∧
        verifyLoopPure H leaf.Hash (pathParts (cur :: levels) idx) = Except.ok root.Hash ∧
        (pathParts (cur :: levels) idx).length = levels.length
  | [], cur, idx, leaf, hwb, _, hleaf => by
    have hlen : cur.length = 1 := hwb
    match cur, hlen with
    | [root], _ =>
      have hidx : idx = 0 := by
        by_contra hc
        rw [List.getElem?_eq_none (by simp; omega)] at hleaf
        cases hleaf
      subst hidx
      simp only [List.getElem?_cons_zero, Option.some.injEq] at hleaf
      subst hleaf
      exact ⟨[root], root, rfl, rfl, rfl, rfl⟩
  | next :: rest, cur, idx, leaf, hwb, hsz, hleaf => by
    obtain ⟨_, hnext, hwb2⟩ := hwb
    obtain ⟨part, parent, sib, hparts, hsib, hph, hparent, hhash⟩ :=
      levelParts_parent H cur idx leaf hleaf
    subst hnext
    obtain ⟨top, root, htop, hroot, hver, hlen⟩ :=
      verifyLoopPure_pathParts H rest (combineLevel H cur) (idx / 2) parent hwb2
        (combineLevel_sized H cur) hparent
    refine ⟨top, root, ?_, hroot, ?_, ?_⟩
    · simpa [List.getLast?_cons_cons] using htop
    · have hps : part.Hash.length = Size := by rw [hph]; exact hsz sib hsib
      simp only [pathParts, hparts, List.singleton_append]
      rw [verifyLoopPure_cons_sized H _ _ _ hps, ← hhash]
      exact hver
    · simp only [pathParts, hparts, List.singleton_append, List.length_cons, hlen]

/-! ## Lemmas on whole operations -/

theorem AddLeaf_nil (H : HashFn) (mt : MerkleTree) (data : Bytes)
    (h : mt.MerkleNodes = []) :
    AddLeaf H mt data =
      { MerkleNodes := [[newMerkleNode (H.Sum256 data)]], IsTreeBuilt := mt.IsTreeBuilt } := by
  simp [AddLeaf, h]

theorem AddLeaf_cons (H : HashFn) (mt : MerkleTree) (data : Bytes)
    (level0 : List MerkleNode) (upper : List (List MerkleNode))
    (h : mt.MerkleNodes = level0 :: upper) :
    AddLeaf H mt data =
      { MerkleNodes := (level0 ++ [newMerkleNode (H.Sum256 data)]) :: upper,
        IsTreeBuilt := mt.IsTreeBuilt } := by
  simp [AddLeaf, h]

theorem foldl_AddLeaf_cons (H : HashFn) :
    ∀ (datas : List Bytes) (mt : MerkleTree) (level0 : List MerkleNode)
      (upper : List (List MerkleNode)), mt.MerkleNodes = level0 :: upper →
      datas.foldl (AddLeaf H) mt =
        { MerkleNodes := (level0 ++ datas.map (fun d => newMerkleNode (H.Sum256 d))) :: upper,
          IsTreeBuilt := mt.IsTreeBuilt }
  | [], mt, level0, upper, h => by
    cases mt
    simp only at h
    simp [h]
  | d :: ds, mt, level0, upper, h => by
    rw [List.foldl_cons, AddLeaf_cons H mt d level0 upper h,
      foldl_AddLeaf_cons H ds _ _ upper rfl]
    simp

theorem treeOfLeaves_cons (H : HashFn) (d : Bytes) (ds : List Bytes) :
    treeOfLeaves H (d :: ds) =
      { MerkleNodes := [(d :: ds).map (fun x => newMerkleNode (H.Sum256 x))],
        IsTreeBuilt := false } := by
  rw [treeOfLeaves, List.foldl_cons, AddLeaf_nil H emptyTree d rfl,
    foldl_AddLeaf_cons H ds _ _ [] rfl]
  simp [emptyTree]

theorem leaves_sized (H : HashFn) (datas : List Bytes) :
    ∀ node ∈ datas.map (fun x => newMerkleNode (H.Sum256 x)), node.Hash.length = Size := by
  intro node hnode
  obtain ⟨x, _, rfl⟩ := List.mem_map.mp hnode
  exact H.size_eq x

/-- What proof generation returns for an index inside level 0. -/
theorem generate_spec (t : MerkleTree) (cur : List MerkleNode)
    (levels : List (List MerkleNode)) (i : Nat) (leaf : MerkleNode)
    (ht : t.MerkleNodes = cur :: levels) (hleaf : cur[i]? = some leaf) :
    GenerateMerkleProofForSegment (some t) (i : Int) =
      (some ({ Hash := leaf.Hash, IsRight := false } :: pathParts (cur :: levels) i), none) := by
  have hlt : i < cur.length := by
    by_contra hc
    rw [List.getElem?_eq_none (by omega)] at hleaf
    cases hleaf
  have hz : cur.length ≠ 0 := by omega
  have hb : ¬ ((i : Int) < 0 ∨ (i : Int) ≥ (cur.length : Int)) := by omega
  have hfold := foldl_proofStep (cur :: levels) [] [{ Hash := leaf.Hash, IsRight := false }] i
  simp only [List.length_nil, List.nil_append, ← List.range_eq_range'] at hfold
  simp only [GenerateMerkleProofForSegment, ht, hz, hb, if_false, Int.toNat_ofNat, hleaf,
    hfold, List.singleton_append]

theorem GetRootHash_of_top (t : MerkleTree) (root : MerkleNode)
    (h : t.MerkleNodes.getLast? = some [root]) : GetRootHash t = some root.Hash := by
  unfold GetRootHash
  cases hn : t.MerkleNodes with
  | nil => rw [hn] at h; simp at h
  | cons a l =>
    rw [hn, List.getLast?_eq_getElem?] at h
    simp only [h, List.getElem?_cons_zero]

theorem BuildMerkleTree_spec (H : HashFn) (mt : MerkleTree) (level0 : List MerkleNode)
    (upper : List (List MerkleNode)) (hmt : mt.MerkleNodes = level0 :: upper)
    (hne : 1 ≤ level0.length) :
    ∃ ls, WellBuilt H (level0 :: ls) ∧
      BuildMerkleTree H mt =
        some ({ MerkleNodes := level0 :: ls, IsTreeBuilt := true }, none) := by
  obtain ⟨ls, hwb, hall⟩ := build_spec H mt level0 upper hmt hne
  refine ⟨ls, hwb, ?_⟩
  have hf : buildFuel mt = level0.length := by simp [buildFuel, hmt]
  rw [BuildMerkleTree, hf]
  exact hall _ (Nat.le_refl _)

theorem VerifyPure_of_loop (H : HashFn) (rootHash r : Bytes) (first : ProofPart)
    (rest : List ProofPart) (hsz : first.Hash.length = Size)
    (hloop : verifyLoopPure H first.Hash rest = Except.ok r) :
    VerifyPure H rootHash (first :: rest) = (decide (r = rootHash), none) := by
  simp only [VerifyPure, hsz, ne_eq, not_true_eq_false, if_false, hloop]

/-- The build of a tree with sized leaf digests, the proof generated for the leaf at `i`
and the verifier's run on it, in one statement. -/
theorem built_proof (H : HashFn) (mt : MerkleTree) (level0 : List MerkleNode)
    (upper : List (List MerkleNode)) (i : Nat) (leaf : MerkleNode)
    (hmt : mt.MerkleNodes = level0 :: upper)
    (hsz : ∀ node ∈ level0, node.Hash.length = Size) (hleaf : level0[i]? = some leaf) :
    ∃ ls root, WellBuilt H (level0 :: ls) ∧
      BuildMerkleTree H mt =
        some ({ MerkleNodes := level0 :: ls, IsTreeBuilt := true }, none) ∧
      (level0 :: ls).getLast? = some [root] ∧
      GetRootHash { MerkleNodes := level0 :: ls, IsTreeBuilt := true } = some root.Hash ∧
      GenerateMerkleProofForSegment
          (some { MerkleNodes := level0 :: ls, IsTreeBuilt := true }) (i : Int) =
        (some ({ Hash := leaf.Hash, IsRight := false } :: pathParts (level0 :: ls) i), none) ∧
      verifyLoopPure H leaf.Hash (pathParts (level0 :: ls) i) = Except.ok root.Hash ∧
      (pathParts (level0 :: ls) i).length = ls.length := by
  have hlt : i < level0.length := by
    by_contra hc
    rw [List.getElem?_eq_none (by omega)] at hleaf
    cases hleaf
  obtain ⟨ls, hwb, hbuild⟩ := BuildMerkleTree_spec H mt level0 upper hmt (by omega)
  obtain ⟨top, root, htop, hroot, hver, hlen⟩ :=
    verifyLoopPure_pathParts H ls level0 i leaf hwb hsz hleaf
  subst hroot
  exact ⟨ls, root, hwb, hbuild, htop, GetRootHash_of_top _ root htop,
    generate_spec _ level0 ls i leaf rfl hleaf, hver, hlen⟩

theorem WellBuilt_top (H : HashFn) :
    ∀ (ls : List (List MerkleNode)) (cur : List MerkleNode), WellBuilt H (cur :: ls) →
      ∃ root, (cur :: ls).getLast? = some [root]
  | [], cur, h => by
    have hlen : cur.length = 1 := h
    match cur, hlen with
    | [root], _ => exact ⟨root, rfl⟩
  | next :: rest, cur, h => by
    obtain ⟨root, hroot⟩ := WellBuilt_top H rest next h.2.2
    exact ⟨root, by simpa [List.getLast?_cons_cons] using hroot⟩

theorem WellBuilt_adjacent (H : HashFn) :
    ∀ (ls : List (List MerkleNode)) (k : Nat) (lower upper : List MerkleNode),
      WellBuilt H ls → ls[k]? = some lower → ls[k + 1]? = some upper →
      1 < lower.length ∧ upper = combineLevel H lower
  | [], _, _, _, h, _, _ => by cases h
  | [_], 0, _, _, _, _, h2 => by simp at h2
  | [_], k + 1, _, _, _, h1, _ => by simp at h1
  | cur :: next :: rest, 0, lower, upper, h, h1, h2 => by
    simp only [List.getElem?_cons_zero, List.getElem?_cons_succ, Option.some.injEq] at h1 h2
    subst h1
    subst h2
    exact ⟨h.1, h.2.1⟩
  | cur :: next :: rest, k + 1, lower, upper, h, h1, h2 => by
    rw [List.getElem?_cons_succ] at h1 h2
    exact WellBuilt_adjacent H (next :: rest) k lower upper h.2.2 h1 h2

/-- A build that returns no error started from a non-empty level 0, kept it, set the
flag and left a well-built list of levels. -/
theorem BuildMerkleTree_inv (H : HashFn) (mt built : MerkleTree)
    (hb : BuildMerkleTree H mt = some (built, none)) :
    ∃ level0 upper ls, mt.MerkleNodes = level0 :: upper ∧ 1 ≤ level0.length ∧
      built = { MerkleNodes := level0 :: ls, IsTreeBuilt := true } ∧
      WellBuilt H (level0 :: ls) := by
  cases hn : mt.MerkleNodes with
  | nil =>
    simp [BuildMerkleTree, BuildMerkleTreeFuel, hn] at hb
  | cons level0 upper =>
    by_cases hz : level0.length = 0
    · simp [BuildMerkleTree, BuildMerkleTreeFuel, hn, hz] at hb
    · obtain ⟨ls, hwb, hbuild⟩ := BuildMerkleTree_spec H mt level0 upper hn (by omega)
      rw [hbuild] at hb
      simp only [Option.some.injEq, Prod.mk.injEq, and_true] at hb
      exact ⟨level0, upper, ls, rfl, by omega, hb.symm, hwb⟩

/-- On a well-built list of levels the generation loop emits, for each level `k` below
the last, exactly the one part of that level at index `idx / 2 ^ k`, which is in range. -/
theorem pathParts_getElem? (H : HashFn) :
    ∀ (ls : List (List MerkleNode)) (cur : List MerkleNode) (idx k : Nat)
      (lvl : List MerkleNode),
      WellBuilt H (cur :: ls) → idx < cur.length → k < ls.length →
      (cur :: ls)[k]? = some lvl →
      idx / 2 ^ k < lvl.length ∧
        ∃ part, levelParts lvl (idx / 2 ^ k) = [part] ∧
          (pathParts (cur :: ls) idx)[k]? = some part
  | [], _, _, _, _, _, _, hk, _ => by simp at hk
  | next :: rest, cur, idx, 0, lvl, hwb, hidx, _, hlvl => by
    simp only [List.getElem?_cons_zero, Option.some.injEq] at hlvl
    subst hlvl
    obtain ⟨part, _, _, hparts, _⟩ :=
      levelParts_parent H cur idx _ (List.getElem?_eq_getElem hidx)
    refine ⟨by simpa using hidx, part, by simpa using hparts, ?_⟩
    simp [pathParts, hparts]
  | next :: rest, cur, idx, k + 1, lvl, hwb, hidx, hk, hlvl => by
    obtain ⟨_, hnext, hwb2⟩ := hwb
    obtain ⟨part0, _, _, hparts, _⟩ :=
      levelParts_parent H cur idx _ (List.getElem?_eq_getElem hidx)
    rw [List.getElem?_cons_succ] at hlvl
    have hlen := combineLevel_length H cur
    have hidx2 : idx / 2 < next.length := by rw [hnext, hlen]; omega
    have hk2 : k < rest.length := by simpa using hk
    obtain ⟨hlt, part, hp, hget⟩ :=
      pathParts_getElem? H rest next (idx / 2) k lvl hwb2 hidx2 hk2 hlvl
    have hdiv : idx / 2 / 2 ^ k = idx / 2 ^ (k + 1) := by
      rw [Nat.div_div_eq_div_mul, pow_succ, Nat.mul_comm]
    rw [hdiv] at hlt hp
    refine ⟨hlt, part, hp, ?_⟩
    simp only [pathParts, hparts, List.singleton_append, List.getElem?_cons_succ]
    exact hget

theorem pathParts_length (H : HashFn) :
    ∀ (ls : List (List MerkleNode)) (cur : List MerkleNode) (idx : Nat),
      WellBuilt H (cur :: ls) → idx < cur.length →
      (pathParts (cur :: ls) idx).length = ls.length
  | [], _, _, _, _ => rfl
  | next :: rest, cur, idx, hwb, hidx => by
    obtain ⟨_, hnext, hwb2⟩ := hwb
    obtain ⟨part0, _, _, hparts, _⟩ :=
      levelParts_parent H cur idx _ (List.getElem?_eq_getElem hidx)
    have hlen := combineLevel_length H cur
    have hidx2 : idx / 2 < next.length := by rw [hnext, hlen]; omega
    simp only [pathParts, hparts, List.singleton_append, List.length_cons,
      pathParts_length H rest next (idx / 2) hwb2 hidx2]

theorem verifyLoopPure_error_iff (H : HashFn) :
    ∀ (rest : List ProofPart) (c : Bytes),
      (∃ e, verifyLoopPure H c rest = Except.error e) ↔ ∃ part ∈ rest, part.Hash.length ≠ Size
  | [], c => by simp [verifyLoopPure]
  | part :: rest, c => by
    by_cases h : part.Hash.length = Size
    · rw [verifyLoopPure_cons_sized H c part rest h, verifyLoopPure_error_iff H rest]
      simp [h]
    · simp [verifyLoopPure, h]

theorem verifyLoopPure_ok_foldl (H : HashFn) :
    ∀ (rest : List ProofPart) (c : Bytes), (∀ part ∈ rest, part.Hash.length = Size) →
      verifyLoopPure H c rest = Except.ok (rest.foldl (recombine H) c)
  | [], c, _ => rfl
  | part :: rest, c, h => by
    rw [verifyLoopPure_cons_sized H c part rest (h part (List.mem_cons_self _ _)),
      verifyLoopPure_ok_foldl H rest _ (fun q hq => h q (List.mem_cons_of_mem _ hq))]
    simp only [List.foldl_cons, recombine]
    split_ifs <;> rfl

/-! ## Lemmas on collisions -/

theorem verifyLoopPure_cons_ok (H : HashFn) (c r : Bytes) (part : ProofPart)
    (rest : List ProofPart) (h : verifyLoopPure H c (part :: rest) = Except.ok r) :
    part.Hash.length = Size ∧
      verifyLoopPure H
        (H.Sum256 (if part.IsRight then c ++ part.Hash else part.Hash ++ c)) rest =
          Except.ok r := by
  by_cases hp : part.Hash.length = Size
  · rw [verifyLoopPure_cons_sized H c part rest hp] at h
    exact ⟨hp, h⟩
  · simp [verifyLoopPure, hp] at h

theorem WellBuilt_sized (H : HashFn) :
    ∀ (ls : List (List MerkleNode)) (cur : List MerkleNode), WellBuilt H (cur :: ls) →
      (∀ node ∈ cur, node.Hash.length = Size) → DigestsSized (cur :: ls)
  | [], cur, _, hsz => by
    intro lvl hlvl
    simp only [List.mem_singleton] at hlvl
    subst hlvl
    exact hsz
  | next :: rest, cur, hwb, hsz => by
    intro lvl hlvl
    rcases List.mem_cons.mp hlvl with h | h
    · subst h
      exact hsz
    · obtain ⟨_, hnext, hwb2⟩ := hwb
      subst hnext
      exact WellBuilt_sized H rest _ hwb2 (combineLevel_sized H cur) lvl h

theorem combineLevel_mem (H : HashFn) :
    ∀ (lvl : List MerkleNode) (node : MerkleNode), node ∈ combineLevel H lvl →
      ∃ left ∈ lvl, ∃ right ∈ lvl, node.Hash = H.Sum256 (left.Hash ++ right.Hash) ∧
        left.Hash ++ right.Hash ∈ combineInputs lvl
  | [], node, h => by simp [combineLevel] at h
  | [a], node, h => by
    simp only [combineLevel, List.mem_singleton] at h
    subst h
    exact ⟨a, by simp, a, by simp, rfl, by simp [combineInputs]⟩
  | a :: b :: rest, node, h => by
    simp only [combineLevel, List.mem_cons] at h
    rcases h with h | h
    · subst h
      exact ⟨a, by simp, b, by simp, rfl, by simp [combineInputs]⟩
    · obtain ⟨l, hl, r, hr, hh, hin⟩ := combineLevel_mem H rest node h
      exact ⟨l, by simp [hl], r, by simp [hr], hh, by simp [combineInputs, hin]⟩

theorem buildInputs_mem :
    ∀ (ls : List (List MerkleNode)) (k : Nat) (lower : List MerkleNode),
      ls[k]? = some lower → k + 1 < ls.length → ∀ x ∈ combineInputs lower, x ∈ buildInputs ls
  | [], _, _, h, _ => by simp at h
  | [_], _, _, _, hk => by simp at hk
  | cur :: next :: rest, 0, lower, h, _ => by
    simp only [List.getElem?_cons_zero, Option.some.injEq] at h
    subst h
    intro x hx
    simp [buildInputs, hx]
  | cur :: next :: rest, k + 1, lower, h, hk => by
    rw [List.getElem?_cons_succ] at h
    intro x hx
    have hk2 : k + 1 < (next :: rest).length := by simpa using hk
    have := buildInputs_mem (next :: rest) k lower h hk2 x hx
    simp [buildInputs, this]

/-- Soundness of the verifier's loop against a well-built list of levels: a run of at most
as many steps as there are levels above level 0 that ends on the root started from the
digest of a node of the level that many steps below the last, unless the hash collides on
two inputs of the build and of the run. -/
theorem verifyLoopPure_sound (H : HashFn) (levels : List (List MerkleNode)) (root : MerkleNode)
    (hwb : WellBuilt H levels) (hsz : DigestsSized levels)
    (htop : levels.getLast? = some [root]) :
    ∀ (rest : List ProofPart) (c : Bytes), c.length = Size →
      verifyLoopPure H c rest = Except.ok root.Hash → rest.length + 1 ≤ levels.length →
      CollisionFreeOn H (buildInputs levels ++ verifyInputs H c rest) →
      ∃ lvl node, levels[levels.length - (rest.length + 1)]? = some lvl ∧ node ∈ lvl ∧
        node.Hash = c
  | [], c, _, hver, _, _ => by
    simp only [verifyLoopPure, Except.ok.injEq] at hver
    rw [List.getLast?_eq_getElem?] at htop
    exact ⟨[root], root, by simpa using htop, by simp, hver.symm⟩
  | part :: rest, c, hc, hver, hlen, hcf => by
    obtain ⟨hps, hver2⟩ := verifyLoopPure_cons_ok H c root.Hash part rest hver
    have hlen2 : rest.length + 1 ≤ levels.length := by
      simp only [List.length_cons] at hlen
      omega
    have hcf2 : CollisionFreeOn H (buildInputs levels ++
        verifyInputs H (H.Sum256 (if part.IsRight then c ++ part.Hash else part.Hash ++ c))
          rest) := by
      intro x hx y hy hxy
      refine hcf x ?_ y ?_ hxy
      · rcases List.mem_append.mp hx with h | h
        · exact List.mem_append_left _ h
        · exact List.mem_append_right _ (by simp [verifyInputs, h])
      · rcases List.mem_append.mp hy with h | h
        · exact List.mem_append_left _ h
        · exact List.mem_append_right _ (by simp [verifyInputs, h])
    obtain ⟨upper, parent, hupper, hparent, hhash⟩ :=
      verifyLoopPure_sound H levels root hwb hsz htop rest _ (H.size_eq _) hver2 hlen2 hcf2
    simp only [List.length_cons] at hlen ⊢
    have hk : levels.length - (rest.length + 1) = levels.length - (rest.length + 1 + 1) + 1 := by
      omega
    rw [hk] at hupper
    have hlt : levels.length - (rest.length + 1 + 1) < levels.length := by omega
    obtain ⟨lower, hlower⟩ : ∃ lower, levels[levels.length - (rest.length + 1 + 1)]? =
        some lower := ⟨_, List.getElem?_eq_getElem hlt⟩
    obtain ⟨_, hcomb⟩ := WellBuilt_adjacent H levels _ lower upper hwb hlower hupper
    subst hcomb
    obtain ⟨left, hleft, right, hright, hph, hin⟩ := combineLevel_mem H lower parent hparent
    have hbin : left.Hash ++ right.Hash ∈ buildInputs levels :=
      buildInputs_mem levels _ lower hlower (by omega) _ hin
    have heq : left.Hash ++ right.Hash =
        (if part.IsRight then c ++ part.Hash else part.Hash ++ c) := by
      refine hcf _ (List.mem_append_left _ hbin) _ (List.mem_append_right _ ?_) ?_
      · simp [verifyInputs]
      · rw [← hph, hhash]
    have hlsz : ∀ node ∈ lower, node.Hash.length = Size :=
      hsz lower (mem_of_getElem? _ _ _ hlower)
    refine ⟨lower, ?_⟩
    by_cases hr : part.IsRight = true
    · rw [if_pos hr] at heq
      have := (List.append_inj heq (by rw [hlsz left hleft, hc])).1
      exact ⟨left, hlower, hleft, this⟩
    · rw [if_neg hr] at heq
      have := (List.append_inj heq (by rw [hlsz left hleft, hps])).2
      exact ⟨right, hlower, hright, this⟩

/-- Two runs of the verifier's loop over the same parts from different digests end on
different digests, unless the hash collides on an input of one run and one of the other. -/
theorem verifyLoopPure_diverge (H : HashFn) :
    ∀ (rest : List ProofPart) (c c2 r : Bytes), c ≠ c2 →
      verifyLoopPure H c rest = Except.ok r →
      (∀ x ∈ verifyInputs H c rest, ∀ y ∈ verifyInputs H c2 rest,
        H.Sum256 x = H.Sum256 y → x = y) →
      ∃ r2, verifyLoopPure H c2 rest = Except.ok r2 ∧ r2 ≠ r
  | [], c, c2, r, hne, hver, _ => by
    simp only [verifyLoopPure, Except.ok.injEq] at hver
    subst hver
    exact ⟨c2, rfl, fun h => hne h.symm⟩
  | part :: rest, c, c2, r, hne, hver, hcf => by
    obtain ⟨hps, hver2⟩ := verifyLoopPure_cons_ok H c r part rest hver
    rw [verifyLoopPure_cons_sized H c2 part rest hps]
    refine verifyLoopPure_diverge H rest _ _ r ?_ hver2 ?_
    · intro hh
      have := hcf _ (by simp [verifyInputs]) _ (by simp [verifyInputs]) hh
      by_cases hr : part.IsRight = true
      · simp only [hr, if_true] at this
        exact hne (List.append_cancel_right this)
      · simp only [hr, if_false] at this
        exact hne (List.append_cancel_left this)
    · intro x hx y hy hxy
      exact hcf x (by simp [verifyInputs, hx]) y (by simp [verifyInputs, hy]) hxy

/-- Replacing the digest of one part by a different sized digest changes the digest the
verifier's loop ends on, unless the hash collides on an input of the original run and
one of the changed run. -/
theorem verifyLoopPure_replaceHash (H : HashFn) :
    ∀ (rest : List ProofPart) (j : Nat) (c r d : Bytes), j < rest.length →
      d.length = Size → (rest[j]?).map (fun part => part.Hash) ≠ some d →
      verifyLoopPure H c rest = Except.ok r →
      (∀ x ∈ verifyInputs H c rest, ∀ y ∈ verifyInputs H c (replaceHash rest j d),
        H.Sum256 x = H.Sum256 y → x = y) →
      ∃ r2, verifyLoopPure H c (replaceHash rest j d) = Except.ok r2 ∧ r2 ≠ r
  | [], _, _, _, _, hj, _, _, _, _ => by simp at hj
  | part :: rest, 0, c, r, d, _, hd, hne, hver, hcf => by
    obtain ⟨hps, hver2⟩ := verifyLoopPure_cons_ok H c r part rest hver
    simp only [replaceHash]
    rw [verifyLoopPure_cons_sized H c _ rest hd]
    simp only [replaceHash, verifyInputs] at hcf
    refine verifyLoopPure_diverge H rest _ _ r ?_ hver2 ?_
    · intro hh
      have := hcf _ (List.mem_cons_self _ _) _ (List.mem_cons_self _ _) hh
      apply hne
      simp only [List.getElem?_cons_zero, Option.map_some', Option.some.injEq]
      by_cases hr : part.IsRight = true
      · simp only [hr, if_true] at this
        exact List.append_cancel_left this
      · simp only [hr, if_false] at this
        exact List.append_cancel_right this
    · intro x hx y hy hxy
      exact hcf x (List.mem_cons_of_mem _ hx) y (List.mem_cons_of_mem _ hy) hxy
  | part :: rest, j + 1, c, r, d, hj, hd, hne, hver, hcf => by
    obtain ⟨hps, hver2⟩ := verifyLoopPure_cons_ok H c r part rest hver
    simp only [replaceHash]
    rw [verifyLoopPure_cons_sized H c part _ hps]
    simp only [replaceHash, verifyInputs] at hcf
    refine verifyLoopPure_replaceHash H rest j _ r d (by simpa using hj) hd ?_ hver2 ?_
    · simpa using hne
    · intro x hx y hy hxy
      exact hcf x (List.mem_cons_of_mem _ hx) y (List.mem_cons_of_mem _ hy) hxy

theorem generate_some_inv (t : MerkleTree) (cur : List MerkleNode)
    (levels : List (List MerkleNode)) (i : Nat) (proof : List ProofPart)
    (ht : t.MerkleNodes = cur :: levels)
    (hgen : GenerateMerkleProofForSegment (some t) (i : Int) = (some proof, none)) :
    ∃ leaf, cur[i]? = some leaf ∧
      proof = { Hash := leaf.Hash, IsRight := false } :: pathParts (cur :: levels) i := by
  by_cases hlt : i < cur.length
  · refine ⟨cur[i], List.getElem?_eq_getElem hlt, ?_⟩
    rw [generate_spec t cur levels i _ ht (List.getElem?_eq_getElem hlt)] at hgen
    simp only [Prod.mk.injEq, Option.some.injEq, and_true] at hgen
    exact hgen.symm
  · exfalso
    by_cases hz : cur.length = 0
    · simp [GenerateMerkleProofForSegment, ht, hz] at hgen
    · have hb : (i : Int) < 0 ∨ (i : Int) ≥ (cur.length : Int) := by omega
      have hres : GenerateMerkleProofForSegment (some t) (i : Int) =
          (none, some MerkleError.indexOutOfBounds) := by
        simp only [GenerateMerkleProofForSegment, ht, hz, if_false, hb, if_true]
      rw [hres] at hgen
      simp at hgen

/-! ## Lemmas for rebuilds and level sizes -/

/-- Two trees with the same non-empty level 0 build to the same result. -/
theorem BuildMerkleTree_congr (H : HashFn) (t1 t2 : MerkleTree) (level0 : List MerkleNode)
    (u1 u2 : List (List MerkleNode)) (h1 : t1.MerkleNodes = level0 :: u1)
    (h2 : t2.MerkleNodes = level0 :: u2) (hne : 1 ≤ level0.length) :
    BuildMerkleTree H t1 = BuildMerkleTree H t2 := by
  obtain ⟨ls1, hwb1, hb1⟩ := BuildMerkleTree_spec H t1 level0 u1 h1 hne
  obtain ⟨ls2, hwb2, hb2⟩ := BuildMerkleTree_spec H t2 level0 u2 h2 hne
  rw [hb1, hb2, WellBuilt_unique H ls1 ls2 level0 hwb1 hwb2]

theorem WellBuilt_length_clog (H : HashFn) :
    ∀ (ls : List (List MerkleNode)) (cur : List MerkleNode), WellBuilt H (cur :: ls) →
      ls.length = Nat.clog 2 cur.length
  | [], cur, h => by
    have hlen : cur.length = 1 := h
    rw [hlen, Nat.clog_one_right]
    rfl
  | next :: rest, cur, h => by
    obtain ⟨hlt, hnext, hwb⟩ := h
    have ih := WellBuilt_length_clog H rest next hwb
    have h2 : cur.length + 2 - 1 = cur.length + 1 := by omega
    rw [Nat.clog_of_two_le (by decide) (by omega), List.length_cons, ih, hnext,
      combineLevel_length, h2]

theorem combineLevel_append_even (H : HashFn) :
    ∀ (l tail : List MerkleNode), l.length % 2 = 0 →
      combineLevel H (l ++ tail) = combineLevel H l ++ combineLevel H tail
  | [], tail, _ => by simp [combineLevel]
  | [_], _, h => by simp at h
  | a :: b :: rest, tail, h => by
    have h2 : rest.length % 2 = 0 := by
      simp only [List.length_cons] at h
      omega
    have ih := combineLevel_append_even H rest tail h2
    simp only [List.cons_append, combineLevel, List.append_eq, ih]

theorem treeOfLeaves_ne_nil (H : HashFn) (datas : List Bytes) (h : datas ≠ []) :
    treeOfLeaves H datas =
      { MerkleNodes := [datas.map (fun x => newMerkleNode (H.Sum256 x))],
        IsTreeBuilt := false } := by
  match datas, h with
  | d :: ds, _ => exact treeOfLeaves_cons H d ds

theorem WellBuilt_next (H : HashFn) (ls : List (List MerkleNode)) (cur : List MerkleNode)
    (hwb : WellBuilt H (cur :: ls)) (hlen : 1 < cur.length) :
    ∃ rest, ls = combineLevel H cur :: rest ∧ WellBuilt H (combineLevel H cur :: rest) := by
  cases ls with
  | nil =>
    have h1 : cur.length = 1 := hwb
    omega
  | cons next rest =>
    obtain ⟨_, hnext, hwb2⟩ := hwb
    subst hnext
    exact ⟨rest, rfl, hwb2⟩

/-! ## Lemmas on persistence -/

set_option maxRecDepth 100000 in
theorem sextet_table :
    ∀ n : Fin 64, decSextet (encSextet n.val) = some n.val ∧ encSextet n.val ≠ padChar ∧
      keptByDecoder (encSextet n.val) = true := by
  decide

theorem decSextet_encSextet (n : Nat) (h : n < 64) : decSextet (encSextet n) = some n :=
  (sextet_table ⟨n, h⟩).1

theorem encSextet_ne_pad (n : Nat) (h : n < 64) : encSextet n ≠ padChar :=
  (sextet_table ⟨n, h⟩).2.1

theorem encSextet_kept (n : Nat) (h : n < 64) : keptByDecoder (encSextet n) = true :=
  (sextet_table ⟨n, h⟩).2.2

theorem toByte_eq (a : Byte) (n : Nat) (h : n = a.val) : toByte n = a := by
  apply Fin.ext
  simp only [toByte, h]
  exact Nat.mod_eq_of_lt a.isLt

theorem base64Encode_kept :
    ∀ (bytes : Bytes), ∀ c ∈ base64Encode bytes, keptByDecoder c = true
  | [], c, h => by simp [base64Encode] at h
  | [a], c, h => by
    have ha := a.isLt
    simp only [base64Encode, List.mem_cons, List.mem_singleton, List.not_mem_nil,
      or_false] at h
    rcases h with h | h | h | h <;> subst h
    · exact encSextet_kept _ (by omega)
    · exact encSextet_kept _ (by omega)
    · decide
    · decide
  | [a, b], c, h => by
    have ha := a.isLt
    have hb := b.isLt
    simp only [base64Encode, List.mem_cons, List.mem_singleton, List.not_mem_nil,
      or_false] at h
    rcases h with h | h | h | h <;> subst h
    · exact encSextet_kept _ (by omega)
    · exact encSextet_kept _ (by omega)
    · exact encSextet_kept _ (by omega)
    · decide
  | a :: b :: c3 :: rest, c, h => by
    have ha := a.isLt
    have hb := b.isLt
    have hc := c3.isLt
    simp only [base64Encode, List.mem_cons] at h
    rcases h with h | h | h | h | h
    · subst h; exact encSextet_kept _ (by omega)
    · subst h; exact encSextet_kept _ (by omega)
    · subst h; exact encSextet_kept _ (by omega)
    · subst h; exact encSextet_kept _ (by omega)
    · exact base64Encode_kept rest c h

theorem decodeGroups_encode : ∀ bytes : Bytes, decodeGroups (base64Encode bytes) = some bytes
  | [] => rfl
  | [a] => by
    have ha := a.isLt
    have h0 := decSextet_encSextet (a.val / 4) (by omega)
    have h1 := decSextet_encSextet (a.val % 4 * 16) (by omega)
    simp only [base64Encode, decodeGroups, if_true, ne_eq, not_true_eq_false, if_false, h0, h1]
    rw [toByte_eq a _ (by omega)]
  | [a, b] => by
    have ha := a.isLt
    have hb := b.isLt
    have h0 := decSextet_encSextet (a.val / 4) (by omega)
    have h1 := decSextet_encSextet (a.val % 4 * 16 + b.val / 16) (by omega)
    have h2 := decSextet_encSextet (b.val % 16 * 4) (by omega)
    have hp := encSextet_ne_pad (b.val % 16 * 4) (by omega)
    simp only [base64Encode, decodeGroups, if_true, ne_eq, not_true_eq_false, if_false, hp,
      h0, h1, h2]
    rw [toByte_eq a _ (by omega), toByte_eq b _ (by omega)]
  | a :: b :: c :: rest => by
    have ha := a.isLt
    have hb := b.isLt
    have hc := c.isLt
    have h0 := decSextet_encSextet (a.val / 4) (by omega)
    have h1 := decSextet_encSextet (a.val % 4 * 16 + b.val / 16) (by omega)
    have h2 := decSextet_encSextet (b.val % 16 * 4 + c.val / 64) (by omega)
    have h3 := decSextet_encSextet (c.val % 64) (by omega)
    have hp := encSextet_ne_pad (c.val % 64) (by omega)
    simp only [base64Encode, decodeGroups, hp, if_false, h0, h1, h2, h3,
      decodeGroups_encode rest]
    rw [toByte_eq a _ (by omega), toByte_eq b _ (by omega), toByte_eq c _ (by omega)]

/-- Decoding inverts encoding. -/
theorem base64Decode_encode (bytes : Bytes) :
    base64Decode (base64Encode bytes) = some bytes := by
  rw [base64Decode, List.filter_eq_self.mpr (base64Encode_kept bytes)]
  exact decodeGroups_encode bytes

theorem decodeBytes_marshalBytes (hash : Bytes) :
    decodeBytes (marshalBytes hash) = Loaded.ok hash := by
  cases hash with
  | nil => rfl
  | cons a rest =>
    simp only [marshalBytes, decodeBytes, base64Decode_encode]

theorem decodeNode_marshalNode (node : MerkleNode) :
    decodeNode (marshalNode node) = Loaded.ok node := by
  simp only [marshalNode, decodeNode, if_true, decodeBytes_marshalBytes, Loaded.map,
    newMerkleNode]

theorem decodeAll_map {α : Type} (f : Json → Loaded α) (g : α → Json)
    (h : ∀ a, f (g a) = Loaded.ok a) :
    ∀ l : List α, decodeAll f (l.map g) = Loaded.ok l
  | [] => rfl
  | a :: rest => by
    simp only [List.map_cons, decodeAll, h a, decodeAll_map f g h rest]

theorem decodeSlice_marshalSlice {α : Type} (f : Json → Loaded α) (g : α → Json)
    (h : ∀ a, f (g a) = Loaded.ok a) (l : List α) :
    decodeSlice f (marshalSlice g l) = Loaded.ok l := by
  cases l with
  | nil => rfl
  | cons a rest =>
    simp only [marshalSlice, decodeSlice]
    exact decodeAll_map f g h (a :: rest)

/-- Unmarshalling what `Marshal` gives into a tree without levels gives the tree. -/
theorem Unmarshal_Marshal (t target : MerkleTree) (hfresh : target.MerkleNodes = []) :
    Unmarshal (Marshal t) target = Loaded.ok t := by
  cases t with
  | mk levels flag =>
    cases levels with
    | nil =>
      simp [Unmarshal, Marshal, marshalSlice, applyLevels, applyFlag, Loaded.andThen]
    | cons level rest =>
      have hall := decodeAll_map (decodeSlice decodeNode) (marshalSlice marshalNode)
        (decodeSlice_marshalSlice decodeNode marshalNode decodeNode_marshalNode)
        (level :: rest)
      simp only [Unmarshal, Marshal, marshalSlice, and_self, if_true, applyLevels, hfresh,
        hall, Loaded.map, Loaded.andThen, applyFlag]

/-- A file read after a successful save holds the marshalled tree. -/
theorem ReadFile_after_save (t : MerkleTree) (filePath : String) (disk after : Disk)
    (hsave : SaveMerkleTree t filePath disk = Except.ok after) :
    ReadFile filePath after = Except.ok (FileData.json (Marshal t)) := by
  simp only [SaveMerkleTree, WriteFile] at hsave
  by_cases hw : disk.writable filePath = true
  · simp only [hw, if_true, Except.ok.injEq] at hsave
    subst hsave
    simp [ReadFile]
  · simp [hw] at hsave

/-! ## Lemmas on the verifier's memory -/

theorem readSlice_append (mem ext : Memory) (s : Slice) (h : s.array < mem.length) :
    readSlice (mem ++ ext) s = readSlice mem s := by
  unfold readSlice
  rw [List.getD_append mem ext [] s.array h]

theorem readSlice_length (mem : Memory) (s : Slice) (h : SliceOk mem s) :
    (readSlice mem s).length = s.len := by
  have h2 := h.2
  simp only [readSlice, List.length_take, List.length_drop]
  omega

theorem readSlice_fresh (mem : Memory) (content : Bytes) (n c : Nat)
    (hn : n = content.length) :
    readSlice (mem ++ [content]) { array := mem.length, off := 0, len := n, cap := c } =
      content := by
  unfold readSlice
  rw [List.getD_append_right mem [content] [] mem.length (Nat.le_refl _)]
  simp [hn]

theorem SliceOk_append (mem ext : Memory) (s : Slice) (h : SliceOk mem s) :
    SliceOk (mem ++ ext) s := by
  refine ⟨?_, ?_⟩
  · have := h.1
    simp only [List.length_append]
    omega
  · rw [List.getD_append mem ext [] s.array h.1]
    exact h.2

theorem goAppend_no_room (mem : Memory) (s xs : Slice) (h : s.cap < s.len + xs.len) :
    goAppend mem s xs =
      (mem ++ [readSlice mem s ++ readSlice mem xs],
        { array := mem.length, off := 0, len := s.len + xs.len, cap := s.len + xs.len }) := by
  have hn : ¬ s.len + xs.len ≤ s.cap := by omega
  simp only [goAppend, hn, if_false]

/-- When neither the first digest nor any part has room for a digest behind its window,
the loop only allocates, and it ends on the slice that shows what the loop on contents
computes. -/
theorem verifyLoop_no_room (H : HashFn) :
    ∀ (parts : List ProofPartRef) (mem : Memory) (cur : Slice),
      SliceOk mem cur → cur.len = Size → NoRoom cur →
      (∀ part ∈ parts, SliceOk mem part.Hash ∧ NoRoom part.Hash) →
      ∃ ext, (verifyLoop H mem cur parts).1 = mem ++ ext ∧
        Except.map (readSlice (mem ++ ext)) (verifyLoop H mem cur parts).2 =
          verifyLoopPure H (readSlice mem cur) (parts.map (partContent mem))
  | [], mem, cur, _, _, _, _ => by
    refine ⟨[], by simp [verifyLoop], ?_⟩
    simp [verifyLoop, verifyLoopPure, Except.map]
  | part :: rest, mem, cur, hcur, hlen, hroom, hparts => by
    obtain ⟨hpok, hproom⟩ := hparts part (List.mem_cons_self _ _)
    have hplen := readSlice_length mem part.Hash hpok
    by_cases hsz : part.Hash.len = Size
    · have hcontent : ∃ content : Bytes,
          (if part.IsRight = true then goAppend mem cur part.Hash
            else goAppend mem part.Hash cur) =
            (mem ++ [content],
              { array := mem.length, off := 0, len := content.length,
                cap := content.length }) ∧
          content = (if part.IsRight = true then readSlice mem cur ++ readSlice mem part.Hash
            else readSlice mem part.Hash ++ readSlice mem cur) := by
        have hclen := readSlice_length mem cur hcur
        by_cases hr : part.IsRight = true
        · refine ⟨readSlice mem cur ++ readSlice mem part.Hash, ?_, by simp [hr]⟩
          have hno : cur.cap < cur.len + part.Hash.len := by
            have := hroom
            unfold NoRoom at this
            omega
          simp only [hr, if_true, goAppend_no_room mem cur part.Hash hno, List.length_append,
            hclen, hplen]
        · refine ⟨readSlice mem part.Hash ++ readSlice mem cur, ?_, by simp [hr]⟩
          have hno : part.Hash.cap < part.Hash.len + cur.len := by
            have := hproom
            unfold NoRoom at this
            omega
          simp only [hr, if_false, goAppend_no_room mem part.Hash cur hno, List.length_append,
            hclen, hplen]
          simp
      obtain ⟨content, happ, hcont⟩ := hcontent
      have hdig := H.size_eq content
      have hcur2 : SliceOk ((mem ++ [content]) ++ [H.Sum256 content])
          { array := (mem ++ [content]).length, off := 0, len := Size, cap := Size } := by
        refine ⟨by simp, ?_⟩
        rw [List.getD_append_right _ _ [] _ (Nat.le_refl _)]
        simp [hdig]
      have hrest : ∀ q ∈ rest, SliceOk ((mem ++ [content]) ++ [H.Sum256 content]) q.Hash ∧
          NoRoom q.Hash := by
        intro q hq
        obtain ⟨hqok, hqroom⟩ := hparts q (List.mem_cons_of_mem _ hq)
        exact ⟨SliceOk_append _ _ _ (SliceOk_append _ _ _ hqok), hqroom⟩
      obtain ⟨ext, hmem, hres⟩ := verifyLoop_no_room H rest
        ((mem ++ [content]) ++ [H.Sum256 content])
        { array := (mem ++ [content]).length, off := 0, len := Size, cap := Size }
        hcur2 rfl (by simp [NoRoom, Size]) hrest
      have hstep : verifyLoop H mem cur (part :: rest) =
          verifyLoop H ((mem ++ [content]) ++ [H.Sum256 content])
            { array := (mem ++ [content]).length, off := 0, len := Size, cap := Size }
            rest := by
        simp only [verifyLoop, hsz, ne_eq, not_true_eq_false, if_false, happ]
        rw [readSlice_fresh mem content content.length content.length rfl]
      have hmap : rest.map (partContent ((mem ++ [content]) ++ [H.Sum256 content])) =
          rest.map (partContent mem) := by
        apply List.map_congr_left
        intro q hq
        obtain ⟨hqok, _⟩ := hparts q (List.mem_cons_of_mem _ hq)
        simp only [partContent]
        rw [List.append_assoc, readSlice_append mem _ q.Hash hqok.1]
      refine ⟨[content, H.Sum256 content] ++ ext, ?_, ?_⟩
      · rw [hstep, hmem]
        simp
      · have hassoc : mem ++ ([content, H.Sum256 content] ++ ext) =
            ((mem ++ [content]) ++ [H.Sum256 content]) ++ ext := by simp
        rw [hstep, hassoc, hres, hmap,
          readSlice_fresh (mem ++ [content]) (H.Sum256 content) Size Size hdig.symm]
        have hpc : (partContent mem part).Hash.length = Size := by
          simp only [partContent, hplen, hsz]
        simp only [List.map_cons]
        rw [verifyLoopPure_cons_sized H _ (partContent mem part) _ hpc, hcont]
        simp only [partContent]
    · refine ⟨[], by simp [verifyLoop, hsz], ?_⟩
      have hpc : (partContent mem part).Hash.length ≠ Size := by
        simp only [partContent, hplen]
        exact hsz
      simp [verifyLoop, verifyLoopPure, hsz, hpc, Except.map]

/-- On slices without room for a digest behind their windows the verifier returns what
the verifier on contents returns. This covers every digest with capacity below 64, so
the digests made by `sha256.Sum256` and read by `json.Unmarshal`, also when several parts
show the same backing array. -/
theorem VerifyMerkleProofMem_no_room (H : HashFn) (mem : Memory) (rootHash : Slice)
    (proof : List ProofPartRef) (hroot : rootHash.array < mem.length)
    (hparts : ∀ part ∈ proof, SliceOk mem part.Hash ∧ NoRoom part.Hash) :
    (VerifyMerkleProofMem H mem rootHash proof).1 =
      VerifyPure H (readSlice mem rootHash) (proof.map (partContent mem)) := by
  cases proof with
  | nil => simp [VerifyMerkleProofMem, VerifyPure]
  | cons first rest =>
    obtain ⟨hfok, hfroom⟩ := hparts first (List.mem_cons_self _ _)
    have hflen := readSlice_length mem first.Hash hfok
    by_cases hsz : first.Hash.len = Size
    · obtain ⟨ext, hmem, hres⟩ := verifyLoop_no_room H rest mem first.Hash hfok hsz hfroom
        (fun q hq => hparts q (List.mem_cons_of_mem _ hq))
      have hpc : (partContent mem first).Hash.length = Size := by
        simp only [partContent, hflen, hsz]
      cases hloop : verifyLoop H mem first.Hash rest with
      | mk after res =>
        rw [hloop] at hmem hres
        simp only at hmem hres
        subst hmem
        cases res with
        | error e =>
          simp only [Except.map] at hres
          simp only [VerifyMerkleProofMem, hsz, ne_eq, not_true_eq_false, if_false, hloop,
            List.map_cons, VerifyPure, hpc]
          simp only [partContent] at hres ⊢
          rw [← hres]
        | ok last =>
          simp only [Except.map] at hres
          simp only [VerifyMerkleProofMem, hsz, ne_eq, not_true_eq_false, if_false, hloop,
            List.map_cons, VerifyPure, hpc]
          simp only [partContent] at hres ⊢
          rw [← hres, readSlice_append mem ext rootHash hroot]
    · have hpc : (partContent mem first).Hash.length ≠ Size := by
        simp only [partContent, hflen]
        exact hsz
      simp [VerifyMerkleProofMem, VerifyPure, hsz, hpc]

theorem tightRefs_spec :
    ∀ (proof : List ProofPart) (pre : Memory),
      (∀ ref ∈ tightRefs pre.length proof,
        SliceOk (pre ++ proof.map (fun part => part.Hash)) ref.Hash ∧ NoRoom ref.Hash) ∧
      (tightRefs pre.length proof).map
        (partContent (pre ++ proof.map (fun part => part.Hash))) = proof
  | [], pre => by simp [tightRefs]
  | part :: rest, pre => by
    have ih := tightRefs_spec rest (pre ++ [part.Hash])
    have hl : (pre ++ [part.Hash]).length = pre.length + 1 := by simp
    have hm : pre ++ part.Hash :: rest.map (fun q => q.Hash) =
        (pre ++ [part.Hash]) ++ rest.map (fun q => q.Hash) := by simp
    rw [hl] at ih
    have hget : (pre ++ part.Hash :: rest.map (fun q => q.Hash)).getD pre.length [] =
        part.Hash := by
      rw [List.getD_append_right _ _ [] _ (Nat.le_refl _)]
      simp
    have hok : SliceOk (pre ++ part.Hash :: rest.map (fun q => q.Hash))
        (tightSlice pre.length part.Hash) := by
      refine ⟨by simp [tightSlice], ?_⟩
      simp only [tightSlice]
      rw [hget]
      omega
    have hread : readSlice (pre ++ part.Hash :: rest.map (fun q => q.Hash))
        (tightSlice pre.length part.Hash) = part.Hash := by
      simp only [readSlice, tightSlice]
      rw [hget]
      simp
    constructor
    · intro ref href
      simp only [tightRefs, List.mem_cons] at href
      rcases href with h | h
      · subst h
        exact ⟨hok, by simp [NoRoom, tightSlice, Size]⟩
      · rw [List.map_cons, hm]
        exact ih.1 ref h
    · simp only [tightRefs, List.map_cons, List.cons.injEq]
      refine ⟨?_, ?_⟩
      · simp only [partContent, hread]
      · rw [hm]
        exact ih.2

/-- The verifier on digests laid out one per backing array without spare capacity returns
what the verifier on contents returns. -/
theorem VerifyMerkleProof_eq (H : HashFn) (rootHash : Bytes) (proof : List ProofPart) :
    VerifyMerkleProof H rootHash proof = VerifyPure H rootHash proof := by
  have hspec := tightRefs_spec proof [rootHash]
  simp only [List.length_singleton, List.singleton_append] at hspec
  have hmain := VerifyMerkleProofMem_no_room H (tightMemory rootHash proof)
    (tightSlice 0 rootHash) (tightRefs 1 proof) (by simp [tightSlice, tightMemory])
    hspec.1
  have hroot : readSlice (tightMemory rootHash proof) (tightSlice 0 rootHash) = rootHash := by
    simp [readSlice, tightSlice, tightMemory]
  rw [VerifyMerkleProof, hmain, hroot]
  simp only [tightMemory]
  rw [hspec.2]

/-- The recombination rule on digests without spare capacity: on a proof that is not
empty and whose digests are all 32 bytes long, laid out one digest per backing array,
`VerifyMerkleProof` returns no error and returns `true` exactly when the left fold of the
recombination step over `proof[1:]`, started at `proof[0].Hash`, ends on the root; the
orientation of `proof[0]` has no effect. -/
theorem VerifyMerkleProof_recombination (H : HashFn) (rootHash : Bytes) (first : ProofPart)
    (rest : List ProofPart)
    (hwf : ∀ part ∈ first :: rest, part.Hash.length = 32) :
    VerifyMerkleProof H rootHash (first :: rest) =
      (decide (rest.foldl (recombine H) first.Hash = rootHash), none) ∧
    ((VerifyMerkleProof H rootHash (first :: rest)).1 = true ↔
      rest.foldl (recombine H) first.Hash = rootHash) ∧
    (∀ (b : Bool) (anyRest : List ProofPart),
      VerifyMerkleProof H rootHash ({ Hash := first.Hash, IsRight := b } :: anyRest) =
        VerifyMerkleProof H rootHash (first :: anyRest)) := by
  have hf : first.Hash.length = Size := hwf first (List.mem_cons_self _ _)
  have hloop := verifyLoopPure_ok_foldl H rest first.Hash
    (fun q hq => hwf q (List.mem_cons_of_mem _ hq))
  have hres := VerifyPure_of_loop H rootHash _ first rest hf hloop
  rw [← VerifyMerkleProof_eq] at hres
  refine ⟨hres, ?_, ?_⟩
  · rw [hres]
    simp
  · intro b anyRest
    simp only [VerifyMerkleProof_eq, VerifyPure]

/-! ## Lemmas on structurally invalid records -/

theorem agrees_decodeBytes : Agrees decodeBytes hashCovered hashFault := by
  intro x
  cases x with
  | null => simp [hashFault, hashCovered, decodeBytes]
  | bool b => simp [hashFault, hashCovered, decodeBytes]
  | number n => simp [hashFault, hashCovered, decodeBytes]
  | str s =>
    cases h : base64Decode s.data <;> simp [hashFault, hashCovered, decodeBytes, h]
  | arr elems => simp [hashFault, hashCovered, decodeBytes]
  | obj members => simp [hashFault, hashCovered, decodeBytes]

theorem agrees_map {α β : Type} (f : Json → Loaded α) (g : α → β)
    (covered fault : Json → Bool) (h : Agrees f covered fault) :
    Agrees (fun x => (f x).map g) covered fault := by
  intro x
  obtain ⟨h1, h2⟩ := h x
  constructor
  · intro hf b hb
    cases hx : f x with
    | ok a => exact h1 hf a hx
    | error e => simp [hx, Loaded.map] at hb
    | unmodelled => simp [hx, Loaded.map] at hb
  · intro hc
    obtain ⟨h3, h4⟩ := h2 hc
    constructor
    · intro hf
      obtain ⟨e, he⟩ := h3 hf
      exact ⟨e, by simp [he, Loaded.map]⟩
    · intro hf
      obtain ⟨a, ha⟩ := h4 hf
      exact ⟨g a, by simp [ha, Loaded.map]⟩

theorem agrees_decodeNode : Agrees decodeNode nodeCovered nodeFault := by
  intro x
  cases x with
  | null => simp [nodeFault, nodeCovered, decodeNode]
  | bool b => simp [nodeFault, nodeCovered, decodeNode]
  | number n => simp [nodeFault, nodeCovered, decodeNode]
  | str s => simp [nodeFault, nodeCovered, decodeNode]
  | arr elems => simp [nodeFault, nodeCovered, decodeNode]
  | obj members =>
    match members with
    | [] => simp [nodeFault, nodeCovered, decodeNode]
    | [(key, value)] =>
      by_cases hk : key = "hash"
      · have h := agrees_map decodeBytes newMerkleNode hashCovered hashFault
          agrees_decodeBytes value
        simpa [nodeFault, nodeCovered, decodeNode, hk] using h
      · simp [nodeFault, nodeCovered, decodeNode, hk]
    | _ :: _ :: _ => simp [nodeFault, nodeCovered, decodeNode]

theorem agrees_decodeAll {α : Type} (f : Json → Loaded α) (covered fault : Json → Bool)
    (h : Agrees f covered fault) :
    ∀ xs : List Json,
      (xs.any fault = true → ∀ l, decodeAll f xs ≠ Loaded.ok l) ∧
      (xs.all covered = true →
        (xs.any fault = true → ∃ e, decodeAll f xs = Loaded.error e) ∧
        (xs.any fault = false → ∃ l, decodeAll f xs = Loaded.ok l))
  | [] => by simp [decodeAll]
  | x :: rest => by
    obtain ⟨h1, h2⟩ := h x
    obtain ⟨ih1, ih2⟩ := agrees_decodeAll f covered fault h rest
    constructor
    · intro hany l hl
      cases hx : f x with
      | ok a =>
        cases hr : decodeAll f rest with
        | ok tail =>
          simp only [List.any_cons, Bool.or_eq_true] at hany
          rcases hany with hf | hf
          · exact h1 hf a hx
          · exact ih1 hf tail hr
        | error e => simp [decodeAll, hx, hr] at hl
        | unmodelled => simp [decodeAll, hx, hr] at hl
      | error e => simp [decodeAll, hx] at hl
      | unmodelled => simp [decodeAll, hx] at hl
    · intro hall
      simp only [List.all_cons, Bool.and_eq_true] at hall
      obtain ⟨h3, h4⟩ := h2 hall.1
      obtain ⟨ih3, ih4⟩ := ih2 hall.2
      constructor
      · intro hany
        by_cases hf : fault x = true
        · obtain ⟨e, he⟩ := h3 hf
          exact ⟨e, by simp [decodeAll, he]⟩
        · have hf2 : fault x = false := by simpa using hf
          obtain ⟨a, ha⟩ := h4 hf2
          have hrest : rest.any fault = true := by
            simpa [List.any_cons, hf2] using hany
          obtain ⟨e, he⟩ := ih3 hrest
          exact ⟨e, by simp [decodeAll, ha, he]⟩
      · intro hany
        simp only [List.any_cons, Bool.or_eq_false_iff] at hany
        obtain ⟨a, ha⟩ := h4 hany.1
        obtain ⟨l, hl⟩ := ih4 hany.2
        exact ⟨a :: l, by simp [decodeAll, ha, hl]⟩

theorem agrees_decodeSlice {α : Type} (f : Json → Loaded α) (covered fault : Json → Bool)
    (h : Agrees f covered fault) :
    Agrees (decodeSlice f) (sliceCovered covered) (sliceFault fault) := by
  intro x
  cases x with
  | null => simp [sliceFault, sliceCovered, decodeSlice]
  | bool b => simp [sliceFault, sliceCovered, decodeSlice]
  | number n => simp [sliceFault, sliceCovered, decodeSlice]
  | str s => simp [sliceFault, sliceCovered, decodeSlice]
  | obj members => simp [sliceFault, sliceCovered, decodeSlice]
  | arr elems =>
    have hall := agrees_decodeAll f covered fault h elems
    simpa [sliceFault, sliceCovered, decodeSlice] using hall

theorem agrees_levels :
    Agrees (decodeSlice (decodeSlice decodeNode)) (sliceCovered (sliceCovered nodeCovered))
      (sliceFault (sliceFault nodeFault)) :=
  agrees_decodeSlice _ _ _ (agrees_decodeSlice _ _ _ agrees_decodeNode)

theorem applyLevels_fresh (mt : MerkleTree) (value : Json) (hfresh : mt.MerkleNodes = []) :
    applyLevels mt value =
      (decodeSlice (decodeSlice decodeNode) value).map
        (fun levels => { MerkleNodes := levels, IsTreeBuilt := mt.IsTreeBuilt }) := by
  cases value <;> simp [applyLevels, decodeSlice, hfresh, Loaded.map]

theorem applyLevels_fault (mt : MerkleTree) (value : Json)
    (hf : sliceFault (sliceFault nodeFault) value = true) :
    ∀ t, applyLevels mt value ≠ Loaded.ok t := by
  intro t ht
  by_cases hfresh : mt.MerkleNodes = []
  · rw [applyLevels_fresh mt value hfresh] at ht
    exact (agrees_map _ _ _ _ agrees_levels value).1 hf t ht
  · cases value <;> simp [applyLevels, hfresh, sliceFault] at ht hf

theorem applyLevels_covered (mt : MerkleTree) (value : Json) (hfresh : mt.MerkleNodes = [])
    (hc : sliceCovered (sliceCovered nodeCovered) value = true) :
    (sliceFault (sliceFault nodeFault) value = true →
      ∃ e, applyLevels mt value = Loaded.error e) ∧
    (sliceFault (sliceFault nodeFault) value = false →
      ∃ t, applyLevels mt value = Loaded.ok t ∧ t.IsTreeBuilt = mt.IsTreeBuilt) := by
  rw [applyLevels_fresh mt value hfresh]
  obtain ⟨_, h2⟩ := agrees_levels value
  obtain ⟨h3, h4⟩ := h2 hc
  constructor
  · intro hf
    obtain ⟨e, he⟩ := h3 hf
    exact ⟨e, by simp [he, Loaded.map]⟩
  · intro hf
    obtain ⟨a, ha⟩ := h4 hf
    exact ⟨{ MerkleNodes := a, IsTreeBuilt := mt.IsTreeBuilt }, by simp [ha, Loaded.map], rfl⟩

theorem applyFlag_spec (mt : MerkleTree) (value : Json) :
    (flagFault value = true → applyFlag mt value = Loaded.error StorageError.typeError) ∧
    (flagFault value = false →
      ∃ t, applyFlag mt value = Loaded.ok t ∧ t.MerkleNodes = mt.MerkleNodes) := by
  cases value <;> simp [flagFault, applyFlag]

/-- A structurally invalid record is never unmarshalled with success. -/
theorem Unmarshal_fault (doc : Json) (mt : MerkleTree) (hf : recordFault doc = true) :
    ∀ t, Unmarshal doc mt ≠ Loaded.ok t := by
  intro t ht
  cases doc with
  | null => simp [recordFault] at hf
  | bool b => simp [Unmarshal] at ht
  | number n => simp [Unmarshal] at ht
  | str s => simp [Unmarshal] at ht
  | arr elems => simp [Unmarshal] at ht
  | obj members =>
    match members with
    | [] => simp [recordFault] at hf
    | [(key, value)] =>
      by_cases hk : key = "merkleNodes"
      · subst hk
        have hf2 : sliceFault (sliceFault nodeFault) value = true := by
          simpa [recordFault] using hf
        simp only [Unmarshal, if_true] at ht
        exact applyLevels_fault mt value hf2 t ht
      · by_cases hk2 : key = "isTreeBuilt"
        · subst hk2
          have hf2 : flagFault value = true := by simpa [recordFault] using hf
          simp only [Unmarshal, hk, if_false, if_true] at ht
          rw [(applyFlag_spec mt value).1 hf2] at ht
          cases ht
        · simp [Unmarshal, hk, hk2] at ht
    | [(key1, value1), (key2, value2)] =>
      by_cases hk : key1 = "merkleNodes" ∧ key2 = "isTreeBuilt"
      · obtain ⟨hk1, hk2⟩ := hk
        subst hk1
        subst hk2
        have hf2 : sliceFault (sliceFault nodeFault) value1 = true ∨
            flagFault value2 = true := by
          simpa [recordFault] using hf
        simp only [Unmarshal, and_self, if_true] at ht
        cases h1 : applyLevels mt value1 with
        | ok t1 =>
          rw [h1] at ht
          simp only [Loaded.andThen] at ht
          rcases hf2 with h | h
          · exact applyLevels_fault mt value1 h t1 h1
          · rw [(applyFlag_spec t1 value2).1 h] at ht
            cases ht
        | error e => simp [h1, Loaded.andThen] at ht
        | unmodelled => simp [h1, Loaded.andThen] at ht
      · by_cases hk' : key1 = "isTreeBuilt" ∧ key2 = "merkleNodes"
        · obtain ⟨hk1, hk2⟩ := hk'
          subst hk1
          subst hk2
          have hf2 : flagFault value1 = true ∨
              sliceFault (sliceFault nodeFault) value2 = true := by
            simpa [recordFault] using hf
          simp only [Unmarshal, hk, if_false, and_self, if_true] at ht
          cases h1 : applyFlag mt value1 with
          | ok t1 =>
            rw [h1] at ht
            simp only [Loaded.andThen] at ht
            rcases hf2 with h | h
            · rw [(applyFlag_spec mt value1).1 h] at h1
              cases h1
            · exact applyLevels_fault t1 value2 h t ht
          | error e => simp [h1, Loaded.andThen] at ht
          | unmodelled => simp [h1, Loaded.andThen] at ht
        · simp [Unmarshal, hk, hk'] at ht
    | _ :: _ :: _ :: _ => simp [Unmarshal] at ht

/-- Inside the modelled fragment, unmarshalling into a tree without levels returns an
error on a structurally invalid record and succeeds on every other record. -/
theorem Unmarshal_covered (doc : Json) (mt : MerkleTree) (hc : recordCovered doc = true)
    (hfresh : mt.MerkleNodes = []) :
    (recordFault doc = true → ∃ e, Unmarshal doc mt = Loaded.error e) ∧
    (recordFault doc = false → ∃ t, Unmarshal doc mt = Loaded.ok t) := by
  cases doc with
  | null => simp [recordFault, Unmarshal]
  | bool b => simp [recordFault, Unmarshal]
  | number n => simp [recordFault, Unmarshal]
  | str s => simp [recordFault, Unmarshal]
  | arr elems => simp [recordFault, Unmarshal]
  | obj members =>
    match members, hc with
    | [], _ => simp [recordFault, Unmarshal]
    | [(key, value)], hc =>
      by_cases hk : key = "merkleNodes"
      · subst hk
        have hcv : sliceCovered (sliceCovered nodeCovered) value = true := by
          simpa [recordCovered] using hc
        obtain ⟨h1, h2⟩ := applyLevels_covered mt value hfresh hcv
        constructor
        · intro hf
          have hf2 : sliceFault (sliceFault nodeFault) value = true := by
            simpa [recordFault] using hf
          simpa [Unmarshal] using h1 hf2
        · intro hf
          have hf2 : sliceFault (sliceFault nodeFault) value = false := by
            simpa [recordFault] using hf
          obtain ⟨t, ht, _⟩ := h2 hf2
          exact ⟨t, by simpa [Unmarshal] using ht⟩
      · have hk2 : key = "isTreeBuilt" := by simpa [recordCovered, hk] using hc
        subst hk2
        obtain ⟨h1, h2⟩ := applyFlag_spec mt value
        constructor
        · intro hf
          have hf2 : flagFault value = true := by simpa [recordFault] using hf
          exact ⟨_, by simpa [Unmarshal] using h1 hf2⟩
        · intro hf
          have hf2 : flagFault value = false := by simpa [recordFault] using hf
          obtain ⟨t, ht, _⟩ := h2 hf2
          exact ⟨t, by simpa [Unmarshal] using ht⟩
    | [(key1, value1), (key2, value2)], hc =>
      by_cases hk : key1 = "merkleNodes" ∧ key2 = "isTreeBuilt"
      · obtain ⟨hk1, hk2⟩ := hk
        subst hk1
        subst hk2
        have hcv : sliceCovered (sliceCovered nodeCovered) value1 = true := by
          simpa [recordCovered] using hc
        obtain ⟨h1, h2⟩ := applyLevels_covered mt value1 hfresh hcv
        have hfault : recordFault
            (Json.obj [("merkleNodes", value1), ("isTreeBuilt", value2)]) =
            (sliceFault (sliceFault nodeFault) value1 || flagFault value2) := by
          simp [recordFault]
        rw [hfault]
        have hun : Unmarshal (Json.obj [("merkleNodes", value1), ("isTreeBuilt", value2)]) mt =
            (applyLevels mt value1).andThen (fun t => applyFlag t value2) := by
          simp [Unmarshal]
        rw [hun]
        cases hl : sliceFault (sliceFault nodeFault) value1 with
        | true =>
          obtain ⟨e, he⟩ := h1 hl
          simp [he, Loaded.andThen]
        | false =>
          obtain ⟨t1, ht1, _⟩ := h2 hl
          obtain ⟨h3, h4⟩ := applyFlag_spec t1 value2
          cases hfl : flagFault value2 with
          | true => simp [ht1, Loaded.andThen, h3 hfl]
          | false =>
            obtain ⟨t2, ht2, _⟩ := h4 hfl
            simp [ht1, Loaded.andThen, ht2]
      · have hk' : key1 = "isTreeBuilt" ∧ key2 = "merkleNodes" ∧
            sliceCovered (sliceCovered nodeCovered) value2 = true := by
          simp only [recordCovered, Bool.or_eq_true, Bool.and_eq_true, decide_eq_true_eq] at hc
          rcases hc with h | h
          · exact absurd ⟨h.1.1, h.1.2⟩ hk
          · exact ⟨h.1.1, h.1.2, h.2⟩
        obtain ⟨hk1, hk2, hcv⟩ := hk'
        subst hk1
        subst hk2
        have hfault : recordFault
            (Json.obj [("isTreeBuilt", value1), ("merkleNodes", value2)]) =
            (flagFault value1 || sliceFault (sliceFault nodeFault) value2) := by
          simp [recordFault]
        rw [hfault]
        have hun : Unmarshal (Json.obj [("isTreeBuilt", value1), ("merkleNodes", value2)]) mt =
            (applyFlag mt value1).andThen (fun t => applyLevels t value2) := by
          simp [Unmarshal]
        rw [hun]
        obtain ⟨h3, h4⟩ := applyFlag_spec mt value1
        cases hfl : flagFault value1 with
        | true => simp [Loaded.andThen, h3 hfl]
        | false =>
          obtain ⟨t1, ht1, hsame⟩ := h4 hfl
          obtain ⟨h1, h2⟩ := applyLevels_covered t1 value2 (by rw [hsame, hfresh]) hcv
          cases hl : sliceFault (sliceFault nodeFault) value2 with
          | true =>
            obtain ⟨e, he⟩ := h1 hl
            simp [ht1, Loaded.andThen, he]
          | false =>
            obtain ⟨t2, ht2, _⟩ := h2 hl
            simp [ht1, Loaded.andThen, ht2]
    | _ :: _ :: _ :: _, hc => simp [recordCovered] at hc

/-! ## The claims -/

/-- C1. Completeness of proofs: after `n ≥ 1` calls of `AddLeaf` on the empty tree and a
build, the build succeeds, and for every index `i < n` proof generation returns a proof
without error which `VerifyMerkleProof` accepts against `GetRootHash`, returning
`(true, nil)`; this for every hash function with 32-byte results and every leaf count,
odd ones included. -/
theorem C1_completeness (H : HashFn) (datas : List Bytes) (i : Nat)
    (hn : 1 ≤ datas.length) (hi : i < datas.length) :
    ∃ built proof root,
      BuildMerkleTree H (treeOfLeaves H datas) = some (built, none) ∧
      GenerateMerkleProofForSegment (some built) (i : Int) = (some proof, none) ∧
      GetRootHash built = some root ∧
      VerifyMerkleProof H root proof = (true, none) := by
  match datas, hn with
  | d :: ds, _ =>
    have hnodes : (treeOfLeaves H (d :: ds)).MerkleNodes =
        [(d :: ds).map (fun x => newMerkleNode (H.Sum256 x))] := by
      rw [treeOfLeaves_cons]
    have hlt : i < ((d :: ds).map (fun x => newMerkleNode (H.Sum256 x))).length := by
      simpa using hi
    obtain ⟨leaf, hleaf⟩ : ∃ leaf,
        ((d :: ds).map (fun x => newMerkleNode (H.Sum256 x)))[i]? = some leaf :=
      ⟨_, List.getElem?_eq_getElem hlt⟩
    obtain ⟨ls, root, _, hbuild, _, hroot, hgen, hver, _⟩ :=
      built_proof H (treeOfLeaves H (d :: ds)) _ [] i leaf hnodes
        (leaves_sized H (d :: ds)) hleaf
    refine ⟨_, _, _, hbuild, hgen, hroot, ?_⟩
    rw [VerifyMerkleProof_eq, VerifyPure_of_loop H _ _ _ _ (leaves_sized H (d :: ds) _
      (mem_of_getElem? _ _ _ hleaf)) hver]
    simp

set_option maxRecDepth 100000 in
/-- C1 at a three-leaf tree and its last index, with the stand-in hash. -/
theorem C1_completeness_witness :
    1 ≤ [[(1 : Byte)], [2], [3]].length ∧ 2 < [[(1 : Byte)], [2], [3]].length ∧
    ∃ built proof root,
      BuildMerkleTree toyHash (treeOfLeaves toyHash [[1], [2], [3]]) = some (built, none) ∧
      GenerateMerkleProofForSegment (some built) ((2 : Nat) : Int) = (some proof, none) ∧
      GetRootHash built = some root ∧
      VerifyMerkleProof toyHash root proof = (true, none) :=
  ⟨by decide, by decide, C1_completeness toyHash [[1], [2], [3]] 2 (by decide) (by decide)⟩

set_option maxRecDepth 100000 in
/-- C2 as stated fails: on the built tree of the two segments `[1]` and `[2]`, the proof
whose only element is the root digest is accepted with `(true, nil)`, the stand-in hash
has no collision among the segments and the inputs hashed by the build and by the
verifier, and yet the digest of element 0 is the digest of no leaf. -/
theorem C2_soundness_counterexample :
    BuildMerkleTree toyHash (treeOfLeaves toyHash [[1], [2]]) = some (twoLeafBuilt, none) ∧
    GetRootHash twoLeafBuilt = some twoLeafRoot ∧
    VerifyMerkleProof toyHash twoLeafRoot [{ Hash := twoLeafRoot, IsRight := false }] =
      (true, none) ∧
    CollisionFreeOn toyHash
      ([[1], [2]] ++ buildInputs twoLeafBuilt.MerkleNodes ++
        verifierInputs toyHash [{ Hash := twoLeafRoot, IsRight := false }]) ∧
    twoLeafBuilt.MerkleNodes[0]? =
      some [newMerkleNode (toyHash.Sum256 [1]), newMerkleNode (toyHash.Sum256 [2])] ∧
    (∀ node ∈ [newMerkleNode (toyHash.Sum256 [1]), newMerkleNode (toyHash.Sum256 [2])],
      node.Hash ≠ twoLeafRoot) := by
  refine ⟨by rfl, by rfl, by decide, by decide, by rfl, by decide⟩

/-- C2, amended. Soundness of verification for proofs no longer than the tree is high: on
a tree built from leaf digests of 32 bytes, if `VerifyMerkleProof` accepts a proof `p`
against `GetRootHash`, `p` has at most as many elements as the tree has levels, and the
hash has no collision among the inputs hashed by the build and by the verifier, then
`p[0].Hash` is the digest of a node of the level `len(levels) - len(p)`; when `p` has
exactly as many elements as the tree has levels, it is the digest of a leaf. -/
theorem C2_soundness_amended (H : HashFn) (mt built : MerkleTree) (rootHash : Bytes)
    (first : ProofPart) (rest : List ProofPart)
    (hsz : ∀ level0, mt.MerkleNodes.head? = some level0 →
      ∀ node ∈ level0, node.Hash.length = 32)
    (hb : BuildMerkleTree H mt = some (built, none))
    (hroot : GetRootHash built = some rootHash)
    (hver : VerifyMerkleProof H rootHash (first :: rest) = (true, none))
    (hlen : (first :: rest).length ≤ built.MerkleNodes.length)
    (hcf : CollisionFreeOn H
      (buildInputs built.MerkleNodes ++ verifierInputs H (first :: rest))) :
    (∃ lvl node,
      built.MerkleNodes[built.MerkleNodes.length - (first :: rest).length]? = some lvl ∧
      node ∈ lvl ∧ node.Hash = first.Hash) ∧
    ((first :: rest).length = built.MerkleNodes.length →
      ∃ level0 leaf, built.MerkleNodes[0]? = some level0 ∧ leaf ∈ level0 ∧
        leaf.Hash = first.Hash) := by
  rw [VerifyMerkleProof_eq] at hver
  obtain ⟨level0, up, ls, hmt, _, hbuilt, hwb⟩ := BuildMerkleTree_inv H mt built hb
  subst hbuilt
  have hsz0 : ∀ node ∈ level0, node.Hash.length = Size := hsz level0 (by simp [hmt])
  have hsized := WellBuilt_sized H ls level0 hwb hsz0
  obtain ⟨root, htop⟩ := WellBuilt_top H ls level0 hwb
  have hr := GetRootHash_of_top { MerkleNodes := level0 :: ls, IsTreeBuilt := true } root htop
  rw [hroot] at hr
  simp only [Option.some.injEq] at hr
  subst hr
  have hfirst : first.Hash.length = Size := by
    by_contra hc
    simp [VerifyPure, hc] at hver
  have hloop : verifyLoopPure H first.Hash rest = Except.ok root.Hash := by
    cases hl : verifyLoopPure H first.Hash rest with
    | error e => simp [VerifyPure, hfirst, hl] at hver
    | ok r =>
      rw [VerifyPure_of_loop H _ r first rest hfirst hl] at hver
      simp only [Prod.mk.injEq, decide_eq_true_eq, and_true] at hver
      rw [hver]
  have hmain := verifyLoopPure_sound H (level0 :: ls) root hwb hsized htop rest first.Hash
    hfirst hloop hlen hcf
  refine ⟨hmain, ?_⟩
  intro heq
  obtain ⟨lvl, node, hlvl, hnode, hhash⟩ := hmain
  have hzero : (level0 :: ls).length - (rest.length + 1) = 0 := by
    simp only [List.length_cons] at heq ⊢
    omega
  rw [hzero] at hlvl
  exact ⟨lvl, node, hlvl, hnode, hhash⟩

set_option maxRecDepth 100000 in
/-- C2, amended, at the tree of five leaves and the proof generated for its leaf 2. -/
theorem C2_soundness_amended_witness :
    (∀ level0, (treeOfLeaves toyHash sampleLeaves).MerkleNodes.head? = some level0 →
      ∀ node ∈ level0, node.Hash.length = 32) ∧
    BuildMerkleTree toyHash (treeOfLeaves toyHash sampleLeaves) = some (sampleBuilt, none) ∧
    GetRootHash sampleBuilt = some sampleRoot ∧
    VerifyMerkleProof toyHash sampleRoot sampleProof = (true, none) ∧
    sampleProof.length ≤ sampleBuilt.MerkleNodes.length ∧
    CollisionFreeOn toyHash
      (buildInputs sampleBuilt.MerkleNodes ++ verifierInputs toyHash sampleProof) ∧
    ∃ level0 leaf, sampleBuilt.MerkleNodes[0]? = some level0 ∧ leaf ∈ level0 ∧
      leaf.Hash = toyHash.Sum256 [3] :=
  have hsz : ∀ level0, (treeOfLeaves toyHash sampleLeaves).MerkleNodes.head? = some level0 →
      ∀ node ∈ level0, node.Hash.length = 32 := by
    intro level0 h
    have h2 : some sampleLevel0 = some level0 := h
    cases h2
    decide
  ⟨hsz, by rfl, by rfl, by decide, by decide, by decide,
    (C2_soundness_amended toyHash (treeOfLeaves toyHash sampleLeaves) sampleBuilt sampleRoot
      { Hash := toyHash.Sum256 [3], IsRight := false } (sampleProof.tail)
      hsz (by rfl) (by rfl) (by decide) (by decide) (by decide)).2 (by decide)⟩

/-- C3. Tamper sensitivity: on a tree built from leaf digests of 32 bytes, replacing the
digest of any single element of a generated proof, the leaf element or a sibling element,
by a different digest of 32 bytes makes `VerifyMerkleProof` against `GetRootHash` return
`false` (with no error), provided the hash has no collision among the inputs the verifier
hashes on the generated and on the changed proof. -/
theorem C3_tamper_sensitivity (H : HashFn) (mt built : MerkleTree) (i : Nat)
    (rootHash : Bytes) (proof : List ProofPart) (j : Nat) (d : Bytes)
    (hsz : ∀ level0, mt.MerkleNodes.head? = some level0 →
      ∀ node ∈ level0, node.Hash.length = 32)
    (hb : BuildMerkleTree H mt = some (built, none))
    (hroot : GetRootHash built = some rootHash)
    (hgen : GenerateMerkleProofForSegment (some built) (i : Int) = (some proof, none))
    (hj : j < proof.length) (hd : d.length = 32)
    (hne : (proof[j]?).map (fun part => part.Hash) ≠ some d)
    (hcf : CollisionFreeOn H
      (verifierInputs H proof ++ verifierInputs H (replaceHash proof j d))) :
    VerifyMerkleProof H rootHash (replaceHash proof j d) = (false, none) := by
  obtain ⟨level0, up, ls, hmt, _, hbuilt, hwb⟩ := BuildMerkleTree_inv H mt built hb
  subst hbuilt
  have hsz0 : ∀ node ∈ level0, node.Hash.length = Size := hsz level0 (by simp [hmt])
  obtain ⟨leaf, hleaf, hproof⟩ := generate_some_inv _ level0 ls i proof rfl hgen
  obtain ⟨top, root, htop, htop1, hver, _⟩ :=
    verifyLoopPure_pathParts H ls level0 i leaf hwb hsz0 hleaf
  subst htop1
  have hr := GetRootHash_of_top { MerkleNodes := level0 :: ls, IsTreeBuilt := true } root htop
  rw [hroot] at hr
  simp only [Option.some.injEq] at hr
  subst hr
  subst hproof
  have hcross : ∀ x ∈ verifierInputs H
        ({ Hash := leaf.Hash, IsRight := false } :: pathParts (level0 :: ls) i),
      ∀ y ∈ verifierInputs H
        (replaceHash ({ Hash := leaf.Hash, IsRight := false } :: pathParts (level0 :: ls) i)
          j d),
      H.Sum256 x = H.Sum256 y → x = y :=
    fun x hx y hy hxy => hcf x (List.mem_append_left _ hx) y (List.mem_append_right _ hy) hxy
  cases j with
  | zero =>
    simp only [replaceHash, verifierInputs] at hcross ⊢
    have hne2 : leaf.Hash ≠ d := by
      intro h
      apply hne
      simp [h]
    obtain ⟨r2, hr2, hdiff⟩ :=
      verifyLoopPure_diverge H _ leaf.Hash d root.Hash hne2 hver hcross
    rw [VerifyMerkleProof_eq, VerifyPure_of_loop H root.Hash r2 _ _ hd hr2]
    simp [hdiff]
  | succ j =>
    simp only [replaceHash, verifierInputs] at hcross ⊢
    obtain ⟨r2, hr2, hdiff⟩ :=
      verifyLoopPure_replaceHash H _ j leaf.Hash root.Hash d (by simpa using hj) hd
        (by simpa using hne) hver hcross
    rw [VerifyMerkleProof_eq, VerifyPure_of_loop H root.Hash r2 _ _
      (hsz0 leaf (mem_of_getElem? _ _ _ hleaf)) hr2]
    simp [hdiff]

set_option maxRecDepth 100000 in
/-- C3 at the tree of five leaves, the proof generated for its leaf 2 and the digest of
the second sibling replaced by the digest of `[7]`. -/
theorem C3_tamper_sensitivity_witness :
    (∀ level0, (treeOfLeaves toyHash sampleLeaves).MerkleNodes.head? = some level0 →
      ∀ node ∈ level0, node.Hash.length = 32) ∧
    BuildMerkleTree toyHash (treeOfLeaves toyHash sampleLeaves) = some (sampleBuilt, none) ∧
    GetRootHash sampleBuilt = some sampleRoot ∧
    GenerateMerkleProofForSegment (some sampleBuilt) ((2 : Nat) : Int) =
      (some sampleProof, none) ∧
    2 < sampleProof.length ∧ (toyHash.Sum256 [7]).length = 32 ∧
    (sampleProof[2]?).map (fun part => part.Hash) ≠ some (toyHash.Sum256 [7]) ∧
    CollisionFreeOn toyHash
      (verifierInputs toyHash sampleProof ++
        verifierInputs toyHash (replaceHash sampleProof 2 (toyHash.Sum256 [7]))) ∧
    VerifyMerkleProof toyHash sampleRoot (replaceHash sampleProof 2 (toyHash.Sum256 [7])) =
      (false, none) :=
  have hsz : ∀ level0, (treeOfLeaves toyHash sampleLeaves).MerkleNodes.head? = some level0 →
      ∀ node ∈ level0, node.Hash.length = 32 := by
    intro level0 h
    have h2 : some sampleLevel0 = some level0 := h
    cases h2
    decide
  ⟨hsz, by rfl, by rfl, by rfl, by decide, by decide, by decide, by decide,
    C3_tamper_sensitivity toyHash (treeOfLeaves toyHash sampleLeaves) sampleBuilt 2
      sampleRoot sampleProof 2 (toyHash.Sum256 [7])
      hsz (by rfl) (by rfl) (by rfl) (by decide) (by decide) (by decide) (by decide)⟩

/-- C4. Build terminates with a single root: on every tree whose level 0 is non-empty the
build loop ends for every fuel of at least the leaf count, always with the same result;
`BuildMerkleTree` returns no error, sets `IsTreeBuilt`, and leaves a last level of exactly
one node, so that `GetRootHash` is defined. -/
theorem C4_build_single_root (H : HashFn) (mt : MerkleTree) (level0 : List MerkleNode)
    (upper : List (List MerkleNode)) (hmt : mt.MerkleNodes = level0 :: upper)
    (hne : level0 ≠ []) :
    ∃ built top root,
      (∀ fuel, level0.length ≤ fuel → BuildMerkleTreeFuel H fuel mt = some (built, none)) ∧
      BuildMerkleTree H mt = some (built, none) ∧
      built.IsTreeBuilt = true ∧
      built.MerkleNodes.getLast? = some top ∧ top.length = 1 ∧
      GetRootHash built = some root := by
  have h1 : 1 ≤ level0.length := by
    cases level0 with
    | nil => exact absurd rfl hne
    | cons a l => simp
  obtain ⟨ls, hwb, hall⟩ := build_spec H mt level0 upper hmt h1
  obtain ⟨root, htop⟩ := WellBuilt_top H ls level0 hwb
  refine ⟨{ MerkleNodes := level0 :: ls, IsTreeBuilt := true }, [root], root.Hash,
    hall, ?_, rfl, htop, rfl, GetRootHash_of_top _ root htop⟩
  have hf : buildFuel mt = level0.length := by simp [buildFuel, hmt]
  rw [BuildMerkleTree, hf]
  exact hall _ (Nat.le_refl _)

set_option maxRecDepth 100000 in
/-- C4 at the tree of five leaves. -/
theorem C4_build_single_root_witness :
    (treeOfLeaves toyHash sampleLeaves).MerkleNodes = [sampleLevel0] ∧ sampleLevel0 ≠ [] ∧
    ∃ built top root,
      (∀ fuel, sampleLevel0.length ≤ fuel →
        BuildMerkleTreeFuel toyHash fuel (treeOfLeaves toyHash sampleLeaves) =
          some (built, none)) ∧
      BuildMerkleTree toyHash (treeOfLeaves toyHash sampleLeaves) = some (built, none) ∧
      built.IsTreeBuilt = true ∧
      built.MerkleNodes.getLast? = some top ∧ top.length = 1 ∧
      GetRootHash built = some root :=
  ⟨by rfl, by decide,
    C4_build_single_root toyHash (treeOfLeaves toyHash sampleLeaves) sampleLevel0 []
      (by rfl) (by decide)⟩

/-- C5. Pairing and duplication rule: after a build without error, the node at position
`i` of level `k+1` has digest `Hash(level_k[2i] ++ level_k[2i+1])` when position `2i+1`
exists in level `k` and `Hash(level_k[2i] ++ level_k[2i])` when it does not. For leaves
`a, b, c` the levels are `[H a, H b, H c]`, `[H(H a ++ H b), H(H c ++ H c)]` and the
root `H(level1[0] ++ level1[1])`. -/
theorem C5_pairing_rule (H : HashFn) (mt built : MerkleTree)
    (hb : BuildMerkleTree H mt = some (built, none)) :
    (∀ (k i : Nat) (lower upper : List MerkleNode) (node : MerkleNode),
      built.MerkleNodes[k]? = some lower → built.MerkleNodes[k + 1]? = some upper →
      upper[i]? = some node →
      ∃ left, lower[2 * i]? = some left ∧
        node.Hash =
          match lower[2 * i + 1]? with
          | some right => H.Sum256 (left.Hash ++ right.Hash)
          | none => H.Sum256 (left.Hash ++ left.Hash)) ∧
    (∀ a b c : Bytes,
      BuildMerkleTree H (treeOfLeaves H [a, b, c]) =
        some ({ MerkleNodes :=
                  [[{ Hash := H.Sum256 a }, { Hash := H.Sum256 b }, { Hash := H.Sum256 c }],
                   [{ Hash := H.Sum256 (H.Sum256 a ++ H.Sum256 b) },
                    { Hash := H.Sum256 (H.Sum256 c ++ H.Sum256 c) }],
                   [{ Hash := H.Sum256 (H.Sum256 (H.Sum256 a ++ H.Sum256 b) ++
                        H.Sum256 (H.Sum256 c ++ H.Sum256 c)) }]],
                IsTreeBuilt := true }, none)) := by
  constructor
  · intro k i lower upper node hk hk1 hi
    obtain ⟨level0, up, ls, _, _, hbuilt, hwb⟩ := BuildMerkleTree_inv H mt built hb
    subst hbuilt
    obtain ⟨_, hup⟩ := WellBuilt_adjacent H _ k lower upper hwb hk hk1
    subst hup
    rw [combineLevel_getElem?] at hi
    cases hl : lower[2 * i]? with
    | none => rw [hl] at hi; simp at hi
    | some left =>
      rw [hl] at hi
      simp only [Option.map_some', Option.some.injEq] at hi
      refine ⟨left, rfl, ?_⟩
      rw [← hi]
      cases lower[2 * i + 1]? <;> rfl
  · intro a b c
    rfl

set_option maxRecDepth 100000 in
/-- C5 at the tree of five leaves. -/
theorem C5_pairing_rule_witness :
    BuildMerkleTree toyHash (treeOfLeaves toyHash sampleLeaves) = some (sampleBuilt, none) ∧
    (∀ (k i : Nat) (lower upper : List MerkleNode) (node : MerkleNode),
      sampleBuilt.MerkleNodes[k]? = some lower → sampleBuilt.MerkleNodes[k + 1]? = some upper →
      upper[i]? = some node →
      ∃ left, lower[2 * i]? = some left ∧
        node.Hash =
          match lower[2 * i + 1]? with
          | some right => toyHash.Sum256 (left.Hash ++ right.Hash)
          | none => toyHash.Sum256 (left.Hash ++ left.Hash)) :=
  ⟨by rfl, (C5_pairing_rule toyHash (treeOfLeaves toyHash sampleLeaves) sampleBuilt (by rfl)).1⟩

/-- C6. Shape of a generated proof: on a built tree and an index `i` inside level 0, the
proof has one element per level; element 0 holds the digest of `level_0[i]`, and element
`k+1`, for each level `k` below the last, is read at `idx = i / 2^k`: the right neighbour
marked RIGHT when `idx` is even and `idx+1` exists; the node's own digest marked LEFT when
`idx` is even and `idx+1` does not exist; the left neighbour marked LEFT when `idx` is
odd. -/
theorem C6_proof_shape (H : HashFn) (mt built : MerkleTree) (level0 : List MerkleNode)
    (i : Nat) (leaf : MerkleNode)
    (hb : BuildMerkleTree H mt = some (built, none))
    (h0 : built.MerkleNodes[0]? = some level0) (hleaf : level0[i]? = some leaf) :
    ∃ proof, GenerateMerkleProofForSegment (some built) (i : Int) = (some proof, none) ∧
      proof.length = built.MerkleNodes.length ∧
      proof[0]? = some { Hash := leaf.Hash, IsRight := false } ∧
      ∀ (k : Nat) (lvl : List MerkleNode), k + 1 < built.MerkleNodes.length →
        built.MerkleNodes[k]? = some lvl →
        (i / 2 ^ k % 2 = 0 → i / 2 ^ k + 1 < lvl.length →
          ∃ sibling, lvl[i / 2 ^ k + 1]? = some sibling ∧
            proof[k + 1]? = some { Hash := sibling.Hash, IsRight := true }) ∧
        (i / 2 ^ k % 2 = 0 → ¬ i / 2 ^ k + 1 < lvl.length →
          ∃ node, lvl[i / 2 ^ k]? = some node ∧
            proof[k + 1]? = some { Hash := node.Hash, IsRight := false }) ∧
        (i / 2 ^ k % 2 = 1 →
          ∃ sibling, lvl[i / 2 ^ k - 1]? = some sibling ∧
            proof[k + 1]? = some { Hash := sibling.Hash, IsRight := false }) := by
  obtain ⟨lv0, up, ls, _, _, hbuilt, hwb⟩ := BuildMerkleTree_inv H mt built hb
  subst hbuilt
  simp only [List.getElem?_cons_zero, Option.some.injEq] at h0
  subst h0
  have hlt : i < lv0.length := by
    by_contra hc
    rw [List.getElem?_eq_none (by omega)] at hleaf
    cases hleaf
  have hplen := pathParts_length H ls lv0 i hwb hlt
  refine ⟨_, generate_spec _ lv0 ls i leaf rfl hleaf, by simp [hplen], by simp, ?_⟩
  intro k lvl hk hlvl
  have hk2 : k < ls.length := by simpa using hk
  obtain ⟨hidx, part, hparts, hget⟩ := pathParts_getElem? H ls lv0 i k lvl hwb hlt hk2 hlvl
  simp only [List.getElem?_cons_succ, hget]
  refine ⟨?_, ?_, ?_⟩
  · intro he hs
    refine ⟨_, List.getElem?_eq_getElem hs, ?_⟩
    rw [levelParts_even_sibling lvl _ _ he (List.getElem?_eq_getElem hs)] at hparts
    simp only [List.cons.injEq, and_true] at hparts
    rw [hparts]
  · intro he hs
    refine ⟨_, List.getElem?_eq_getElem hidx, ?_⟩
    have hnone : lvl[i / 2 ^ k + 1]? = none := List.getElem?_eq_none (Nat.le_of_not_lt hs)
    rw [levelParts_even_last lvl _ _ he hnone (List.getElem?_eq_getElem hidx)] at hparts
    simp only [List.cons.injEq, and_true] at hparts
    rw [hparts]
  · intro ho
    have hs : i / 2 ^ k - 1 < lvl.length := Nat.lt_of_le_of_lt (Nat.sub_le _ _) hidx
    refine ⟨_, List.getElem?_eq_getElem hs, ?_⟩
    rw [levelParts_odd lvl _ _ ho (List.getElem?_eq_getElem hs)] at hparts
    simp only [List.cons.injEq, and_true] at hparts
    rw [hparts]

set_option maxRecDepth 100000 in
/-- C6 at the last leaf of the tree of five leaves. -/
theorem C6_proof_shape_witness :
    BuildMerkleTree toyHash (treeOfLeaves toyHash sampleLeaves) = some (sampleBuilt, none) ∧
    sampleBuilt.MerkleNodes[0]? = some sampleLevel0 ∧
    sampleLevel0[4]? = some (newMerkleNode (toyHash.Sum256 [5])) ∧
    ∃ proof, GenerateMerkleProofForSegment (some sampleBuilt) ((4 : Nat) : Int) =
        (some proof, none) ∧
      proof.length = sampleBuilt.MerkleNodes.length ∧
      proof[0]? = some { Hash := (newMerkleNode (toyHash.Sum256 [5])).Hash, IsRight := false } ∧
      ∀ (k : Nat) (lvl : List MerkleNode), k + 1 < sampleBuilt.MerkleNodes.length →
        sampleBuilt.MerkleNodes[k]? = some lvl →
        (4 / 2 ^ k % 2 = 0 → 4 / 2 ^ k + 1 < lvl.length →
          ∃ sibling, lvl[4 / 2 ^ k + 1]? = some sibling ∧
            proof[k + 1]? = some { Hash := sibling.Hash, IsRight := true }) ∧
        (4 / 2 ^ k % 2 = 0 → ¬ 4 / 2 ^ k + 1 < lvl.length →
          ∃ node, lvl[4 / 2 ^ k]? = some node ∧
            proof[k + 1]? = some { Hash := node.Hash, IsRight := false }) ∧
        (4 / 2 ^ k % 2 = 1 →
          ∃ sibling, lvl[4 / 2 ^ k - 1]? = some sibling ∧
            proof[k + 1]? = some { Hash := sibling.Hash, IsRight := false }) :=
  ⟨by rfl, by rfl, by rfl,
    C6_proof_shape toyHash (treeOfLeaves toyHash sampleLeaves) sampleBuilt sampleLevel0 4
      (newMerkleNode (toyHash.Sum256 [5])) (by rfl) (by rfl) (by rfl)⟩

/-- C7. Index bounds of proof generation: on a tree with `n ≥ 1` leaves the call fails
with the index-out-of-bounds error exactly when `i < 0` or `i ≥ n`, so for `i = -1` and
`i = n`, and otherwise returns a proof without error; on a tree with no levels or an empty
level 0 it fails with the not-properly-constructed error for every `i`; a call that
returns an error returns no proof. -/
theorem C7_index_bounds (t : MerkleTree) (i : Int) :
    (∀ (level0 : List MerkleNode) (upper : List (List MerkleNode)),
      t.MerkleNodes = level0 :: upper → level0 ≠ [] →
      (GenerateMerkleProofForSegment (some t) i = (none, some MerkleError.indexOutOfBounds) ↔
        (i < 0 ∨ i ≥ (level0.length : Int))) ∧
      ((GenerateMerkleProofForSegment (some t) i).2 = some MerkleError.indexOutOfBounds ↔
        (i < 0 ∨ i ≥ (level0.length : Int))) ∧
      (¬ (i < 0 ∨ i ≥ (level0.length : Int)) →
        ∃ proof, GenerateMerkleProofForSegment (some t) i = (some proof, none)) ∧
      GenerateMerkleProofForSegment (some t) (-1) = (none, some MerkleError.indexOutOfBounds) ∧
      GenerateMerkleProofForSegment (some t) (level0.length : Int) =
        (none, some MerkleError.indexOutOfBounds)) ∧
    ((t.MerkleNodes = [] ∨ t.MerkleNodes.head? = some []) →
      GenerateMerkleProofForSegment (some t) i = (none, some MerkleError.notConstructed)) ∧
    ((GenerateMerkleProofForSegment (some t) i).2 ≠ none →
      (GenerateMerkleProofForSegment (some t) i).1 = none) := by
  have hvalid : ∀ (level0 : List MerkleNode) (upper : List (List MerkleNode)) (j : Int),
      t.MerkleNodes = level0 :: upper → ¬ (j < 0 ∨ j ≥ (level0.length : Int)) →
      ∃ proof, GenerateMerkleProofForSegment (some t) j = (some proof, none) := by
    intro level0 upper j ht hj
    have hj0 : 0 ≤ j := by omega
    obtain ⟨n, rfl⟩ := Int.eq_ofNat_of_zero_le hj0
    have hn : n < level0.length := by omega
    exact ⟨_, generate_spec t level0 upper n _ ht (List.getElem?_eq_getElem hn)⟩
  have hout : ∀ (level0 : List MerkleNode) (upper : List (List MerkleNode)) (j : Int),
      t.MerkleNodes = level0 :: upper → level0 ≠ [] → (j < 0 ∨ j ≥ (level0.length : Int)) →
      GenerateMerkleProofForSegment (some t) j = (none, some MerkleError.indexOutOfBounds) := by
    intro level0 upper j ht hne hj
    have hz : level0.length ≠ 0 := fun h => hne (List.length_eq_zero.mp h)
    simp only [GenerateMerkleProofForSegment, ht, hz, if_false, hj, if_true]
  refine ⟨?_, ?_, ?_⟩
  · intro level0 upper ht hne
    refine ⟨⟨?_, hout level0 upper i ht hne⟩, ⟨?_, ?_⟩, hvalid level0 upper i ht,
      hout level0 upper (-1) ht hne (Or.inl (by omega)),
      hout level0 upper _ ht hne (Or.inr (by omega))⟩
    · intro hgen
      by_contra hc
      obtain ⟨proof, hp⟩ := hvalid level0 upper i ht hc
      rw [hp] at hgen
      cases hgen
    · intro hgen
      by_contra hc
      obtain ⟨proof, hp⟩ := hvalid level0 upper i ht hc
      rw [hp] at hgen
      cases hgen
    · intro hj
      rw [hout level0 upper i ht hne hj]
  · intro hempty
    cases hn : t.MerkleNodes with
    | nil => simp [GenerateMerkleProofForSegment, hn]
    | cons level0 upper =>
      rw [hn] at hempty
      have h0 : level0 = [] := by simpa using hempty
      simp [GenerateMerkleProofForSegment, hn, h0]
  · intro herr
    cases hn : t.MerkleNodes with
    | nil => simp [GenerateMerkleProofForSegment, hn]
    | cons level0 upper =>
      by_cases h0 : level0 = []
      · simp [GenerateMerkleProofForSegment, hn, h0]
      · by_cases hj : i < 0 ∨ i ≥ (level0.length : Int)
        · rw [hout level0 upper i hn h0 hj]
        · obtain ⟨proof, hp⟩ := hvalid level0 upper i hn hj
          rw [hp] at herr
          exact absurd rfl herr

set_option maxRecDepth 100000 in
/-- C7 at the built tree of five leaves and the index 5, and at the empty tree. -/
theorem C7_index_bounds_witness :
    (sampleBuilt.MerkleNodes = sampleLevel0 :: sampleBuilt.MerkleNodes.tail ∧
      sampleLevel0 ≠ [] ∧
      GenerateMerkleProofForSegment (some sampleBuilt) 5 =
        (none, some MerkleError.indexOutOfBounds)) ∧
    ((emptyTree.MerkleNodes = [] ∨ emptyTree.MerkleNodes.head? = some []) ∧
      GenerateMerkleProofForSegment (some emptyTree) 0 =
        (none, some MerkleError.notConstructed)) :=
  ⟨⟨by rfl, by decide,
      ((C7_index_bounds sampleBuilt 5).1 sampleLevel0 sampleBuilt.MerkleNodes.tail (by rfl)
        (by decide)).1.mpr (Or.inr (by decide))⟩,
    ⟨Or.inl rfl, (C7_index_bounds emptyTree 0).2.1 (Or.inl rfl)⟩⟩

/-- C8. Malformed proofs are rejected: `VerifyMerkleProof` returns an error exactly when
the proof has no element or some element, at any position, has a digest that is not 32
bytes long; whenever it returns an error its boolean result is `false`. -/
theorem C8_malformed_rejected (H : HashFn) (rootHash : Bytes) (proof : List ProofPart) :
    ((VerifyMerkleProof H rootHash proof).2 ≠ none ↔
      (proof = [] ∨ ∃ part ∈ proof, part.Hash.length ≠ 32)) ∧
    ((VerifyMerkleProof H rootHash proof).2 ≠ none →
      (VerifyMerkleProof H rootHash proof).1 = false) := by
  simp only [VerifyMerkleProof_eq]
  cases proof with
  | nil => simp [VerifyPure]
  | cons first rest =>
    by_cases hf : first.Hash.length = Size
    · have hiff := verifyLoopPure_error_iff H rest first.Hash
      cases hloop : verifyLoopPure H first.Hash rest with
      | error e =>
        have hex : ∃ part ∈ rest, part.Hash.length ≠ Size := hiff.mp ⟨e, hloop⟩
        obtain ⟨part, hmem, hlen⟩ := hex
        have hres : VerifyPure H rootHash (first :: rest) = (false, some e) := by
          simp only [VerifyPure, hf, ne_eq, not_true_eq_false, if_false, hloop]
        rw [hres]
        refine ⟨?_, fun _ => rfl⟩
        simp only [ne_eq, reduceCtorEq, not_false_eq_true, List.mem_cons, true_iff]
        exact Or.inr ⟨part, Or.inr hmem, hlen⟩
      | ok r =>
        have hno : ¬ ∃ part ∈ rest, part.Hash.length ≠ Size := by
          intro hex
          obtain ⟨e, he⟩ := hiff.mpr hex
          rw [hloop] at he
          cases he
        rw [VerifyPure_of_loop H rootHash r first rest hf hloop]
        refine ⟨?_, fun h => absurd rfl h⟩
        simp only [ne_eq, not_true_eq_false, reduceCtorEq, List.mem_cons, false_or, false_iff]
        rintro ⟨part, hmem | hmem, hlen⟩
        · subst hmem
          exact hlen hf
        · exact hno ⟨part, hmem, hlen⟩
    · have hres : VerifyPure H rootHash (first :: rest) =
          (false, some MerkleError.invalidProof) := by
        simp only [VerifyPure, hf, ne_eq, not_false_eq_true, if_true]
      rw [hres]
      refine ⟨?_, fun _ => rfl⟩
      simp only [ne_eq, reduceCtorEq, not_false_eq_true, List.mem_cons, true_iff]
      exact Or.inr ⟨first, Or.inl rfl, hf⟩

set_option maxRecDepth 100000 in
/-- C9. Recombination rule of the verifier, at a proof whose digests share a buffer: the
three parts of `sharedProof` show digests of 32 bytes, and the left fold of the
recombination step over their contents ends on the root, so that the rule asks for `true`.
`VerifyMerkleProof` returns `(false, nil)`: its first `append(currentHash, part.Hash...)`
finds room behind `buf[0:32]` and writes the second digest over `buf[32:64]`, the third
part, which the next pass then reads. On the same contents laid out one digest per
backing array it returns `(true, nil)`. -/
theorem C9_recombination_shared_buffer :
    sharedProof.map (partContent sharedMemory) =
      [{ Hash := toyHash.Sum256 [1], IsRight := false },
        { Hash := toyHash.Sum256 [2], IsRight := true },
        { Hash := toyHash.Sum256 [3], IsRight := true }] ∧
    (∀ part ∈ sharedProof.map (partContent sharedMemory), part.Hash.length = 32) ∧
    List.foldl (recombine toyHash) (toyHash.Sum256 [1])
        [{ Hash := toyHash.Sum256 [2], IsRight := true },
          { Hash := toyHash.Sum256 [3], IsRight := true }] =
      readSlice sharedMemory sharedRootSlice ∧
    (VerifyMerkleProofMem toyHash sharedMemory sharedRootSlice sharedProof).1 =
      (false, none) ∧
    readSlice (VerifyMerkleProofMem toyHash sharedMemory sharedRootSlice sharedProof).2
        { array := 0, off := 32, len := 32, cap := 96 } = toyHash.Sum256 [2] ∧
    VerifyMerkleProof toyHash (readSlice sharedMemory sharedRootSlice)
        (sharedProof.map (partContent sharedMemory)) = (true, none) := by
  refine ⟨by rfl, by decide, by rfl, by decide, by decide, by decide⟩

/-- C10. Empty trees cannot be built: `BuildMerkleTree` always returns, and it returns an
error exactly when the tree has no levels or level 0 has no nodes; the receiver, levels
and flag, is then as it was. -/
theorem C10_build_empty (H : HashFn) (mt : MerkleTree) :
    ∃ after err, BuildMerkleTree H mt = some (after, err) ∧
      (err ≠ none ↔ (mt.MerkleNodes = [] ∨ mt.MerkleNodes.head? = some [])) ∧
      (err ≠ none → err = some MerkleError.noLeaves ∧ after = mt) := by
  cases hn : mt.MerkleNodes with
  | nil =>
    refine ⟨mt, some MerkleError.noLeaves, ?_, ?_, ?_⟩
    · simp [BuildMerkleTree, BuildMerkleTreeFuel, hn]
    · simp
    · simp
  | cons level0 upper =>
    by_cases hz : level0.length = 0
    · refine ⟨mt, some MerkleError.noLeaves, ?_, ?_, ?_⟩
      · simp [BuildMerkleTree, BuildMerkleTreeFuel, hn, hz]
      · have : level0 = [] := List.length_eq_zero.mp hz
        simp [this]
      · simp
    · obtain ⟨ls, _, hbuild⟩ := BuildMerkleTree_spec H mt level0 upper hn (by omega)
      refine ⟨_, none, hbuild, ?_, ?_⟩
      · have : level0 ≠ [] := fun h => hz (by simp [h])
        simp [this]
      · simp

/-- C11. Leaf ingestion only appends: `AddLeaf(d)` leaves a tree whose level 0 is the old
level 0 followed by one node with digest `Hash(d)` (a fresh level 0 when there was no
level), so that every earlier leaf keeps its index and the new leaf has the old leaf count
as its index; the levels above 0 and the `IsTreeBuilt` flag are as they were. -/
theorem C11_add_leaf_appends (H : HashFn) (t : MerkleTree) (d : Bytes) :
    (AddLeaf H t d).MerkleNodes =
      (t.MerkleNodes.headD [] ++ [newMerkleNode (H.Sum256 d)]) :: t.MerkleNodes.tail ∧
    (AddLeaf H t d).IsTreeBuilt = t.IsTreeBuilt ∧
    (∀ (k : Nat) (node : MerkleNode), (t.MerkleNodes.headD [])[k]? = some node →
      ((AddLeaf H t d).MerkleNodes.headD [])[k]? = some node) ∧
    ((AddLeaf H t d).MerkleNodes.headD [])[(t.MerkleNodes.headD []).length]? =
      some (newMerkleNode (H.Sum256 d)) ∧
    (∀ k : Nat, 1 ≤ k → (AddLeaf H t d).MerkleNodes[k]? = t.MerkleNodes[k]?) ∧
    (t.MerkleNodes = [] → (AddLeaf H t d).MerkleNodes = [[newMerkleNode (H.Sum256 d)]]) := by
  have hnodes : (AddLeaf H t d).MerkleNodes =
      (t.MerkleNodes.headD [] ++ [newMerkleNode (H.Sum256 d)]) :: t.MerkleNodes.tail := by
    cases hn : t.MerkleNodes with
    | nil => rw [AddLeaf_nil H t d hn]; simp
    | cons level0 upper => rw [AddLeaf_cons H t d level0 upper hn]; simp
  have hflag : (AddLeaf H t d).IsTreeBuilt = t.IsTreeBuilt := by
    cases hn : t.MerkleNodes with
    | nil => rw [AddLeaf_nil H t d hn]
    | cons level0 upper => rw [AddLeaf_cons H t d level0 upper hn]
  refine ⟨hnodes, hflag, ?_, ?_, ?_, ?_⟩
  · intro k node hk
    have hlt : k < (t.MerkleNodes.headD []).length := by
      by_contra hc
      rw [List.getElem?_eq_none (by omega)] at hk
      cases hk
    rw [hnodes, List.headD_cons, List.getElem?_append_left hlt]
    exact hk
  · rw [hnodes, List.headD_cons, List.getElem?_append_right (Nat.le_refl _)]
    simp
  · intro k hk
    obtain ⟨j, rfl⟩ : ∃ j, k = j + 1 := ⟨k - 1, by omega⟩
    rw [hnodes, List.getElem?_cons_succ]
    cases t.MerkleNodes <;> simp
  · intro hn
    rw [hnodes, hn]
    simp

/-- C12. Build is a full rebuild from level 0: two trees with the same non-empty level 0,
whatever their upper levels and flags, build to the same tree, with `IsTreeBuilt` set and
level 0 kept; building the result again gives the result; and adding leaves to the built
tree and building gives what building the tree of all the leaves gives. -/
theorem C12_full_rebuild (H : HashFn) (t1 t2 : MerkleTree) (level0 : List MerkleNode)
    (u1 u2 : List (List MerkleNode)) (h1 : t1.MerkleNodes = level0 :: u1)
    (h2 : t2.MerkleNodes = level0 :: u2) (hne : level0 ≠ []) :
    ∃ built, BuildMerkleTree H t1 = some (built, none) ∧
      BuildMerkleTree H t2 = some (built, none) ∧
      built.IsTreeBuilt = true ∧ built.MerkleNodes[0]? = some level0 ∧
      BuildMerkleTree H built = some (built, none) ∧
      (∀ ds : List Bytes,
        BuildMerkleTree H (ds.foldl (AddLeaf H) built) =
          BuildMerkleTree H
            { MerkleNodes := [level0 ++ ds.map (fun d => newMerkleNode (H.Sum256 d))],
              IsTreeBuilt := false }) ∧
      (∀ (ds1 ds2 : List Bytes) (b : MerkleTree), ds1 ≠ [] →
        BuildMerkleTree H (treeOfLeaves H ds1) = some (b, none) →
        BuildMerkleTree H (ds2.foldl (AddLeaf H) b) =
          BuildMerkleTree H (treeOfLeaves H (ds1 ++ ds2))) := by
  have hlen : 1 ≤ level0.length := by
    cases level0 with
    | nil => exact absurd rfl hne
    | cons a l => simp
  obtain ⟨ls, hwb, hb1⟩ := BuildMerkleTree_spec H t1 level0 u1 h1 hlen
  have hadd : ∀ (lv : List MerkleNode) (up : List (List MerkleNode)) (flag : Bool)
      (ds : List Bytes), 1 ≤ lv.length →
      BuildMerkleTree H (ds.foldl (AddLeaf H) { MerkleNodes := lv :: up, IsTreeBuilt := flag }) =
        BuildMerkleTree H
          { MerkleNodes := [lv ++ ds.map (fun d => newMerkleNode (H.Sum256 d))],
            IsTreeBuilt := false } := by
    intro lv up flag ds hlv
    rw [foldl_AddLeaf_cons H ds _ lv up rfl]
    exact BuildMerkleTree_congr H _ _ _ up [] rfl rfl (by simp; omega)
  refine ⟨_, hb1, ?_, rfl, by simp, ?_, ?_, ?_⟩
  · rw [← hb1]
    exact BuildMerkleTree_congr H t2 t1 level0 u2 u1 h2 h1 hlen
  · rw [← hb1]
    exact BuildMerkleTree_congr H _ t1 level0 ls u1 rfl h1 hlen
  · intro ds
    exact hadd level0 ls true ds hlen
  · intro ds1 ds2 b hds1 hb
    match ds1, hds1 with
    | d :: ds, _ =>
      have hnodes := treeOfLeaves_cons H d ds
      obtain ⟨lv, up, ls2, hmt, hlv, hbuilt, _⟩ := BuildMerkleTree_inv H _ b hb
      rw [hnodes] at hmt
      simp only [List.cons.injEq] at hmt
      obtain ⟨hlv0, _⟩ := hmt
      subst hbuilt
      rw [hadd lv ls2 true ds2 hlv, ← hlv0]
      have hall : treeOfLeaves H (d :: ds ++ ds2) =
          { MerkleNodes := [(d :: ds ++ ds2).map (fun x => newMerkleNode (H.Sum256 x))],
            IsTreeBuilt := false } := treeOfLeaves_cons H d (ds ++ ds2)
      rw [hall]
      simp

set_option maxRecDepth 100000 in
/-- C12 at the built tree of five leaves and the unbuilt tree of the same leaves. -/
theorem C12_full_rebuild_witness :
    sampleBuilt.MerkleNodes = sampleLevel0 :: sampleBuilt.MerkleNodes.tail ∧
    (treeOfLeaves toyHash sampleLeaves).MerkleNodes = sampleLevel0 :: [] ∧
    sampleLevel0 ≠ [] ∧
    ∃ built, BuildMerkleTree toyHash sampleBuilt = some (built, none) ∧
      BuildMerkleTree toyHash (treeOfLeaves toyHash sampleLeaves) = some (built, none) ∧
      built.IsTreeBuilt = true ∧ built.MerkleNodes[0]? = some sampleLevel0 ∧
      BuildMerkleTree toyHash built = some (built, none) :=
  ⟨by rfl, by rfl, by decide,
    let ⟨built, h1, h2, h3, h4, h5, _⟩ :=
      C12_full_rebuild toyHash sampleBuilt (treeOfLeaves toyHash sampleLeaves) sampleLevel0
        sampleBuilt.MerkleNodes.tail [] (by rfl) (by rfl) (by decide)
    ⟨built, h1, h2, h3, h4, h5⟩⟩

/-- C13. Persistence round trip: when `SaveMerkleTree` has written a tree, built or not,
without error, `LoadMerkleTree` on a fresh tree (on any tree without levels) and the same
path returns no error and leaves the receiver equal to the written tree: the same number
of levels, the same digests in the same order in each level, the same `IsTreeBuilt`. -/
theorem C13_round_trip (t : MerkleTree) (filePath : String) (disk after : Disk)
    (hsave : SaveMerkleTree t filePath disk = Except.ok after) :
    LoadMerkleTree emptyTree filePath after = Loaded.ok t ∧
    (∀ target : MerkleTree, target.MerkleNodes = [] →
      LoadMerkleTree target filePath after = Loaded.ok t) ∧
    (∀ loaded : MerkleTree, LoadMerkleTree emptyTree filePath after = Loaded.ok loaded →
      loaded.MerkleNodes.length = t.MerkleNodes.length ∧
      loaded.MerkleNodes.map (fun level => level.map (fun node => node.Hash)) =
        t.MerkleNodes.map (fun level => level.map (fun node => node.Hash)) ∧
      loaded.IsTreeBuilt = t.IsTreeBuilt) := by
  have hread := ReadFile_after_save t filePath disk after hsave
  have hall : ∀ target : MerkleTree, target.MerkleNodes = [] →
      LoadMerkleTree target filePath after = Loaded.ok t := by
    intro target hfresh
    simp only [LoadMerkleTree, hread, Unmarshal_Marshal t target hfresh]
  refine ⟨hall emptyTree rfl, hall, ?_⟩
  intro loaded hloaded
  rw [hall emptyTree rfl] at hloaded
  simp only [Loaded.ok.injEq] at hloaded
  subst hloaded
  exact ⟨rfl, rfl, rfl⟩

set_option maxRecDepth 100000 in
/-- C13 at the built tree of five leaves and at the unbuilt tree of the same leaves. -/
theorem C13_round_trip_witness :
    (SaveMerkleTree sampleBuilt samplePath emptyDisk = Except.ok (savedDisk sampleBuilt) ∧
      LoadMerkleTree emptyTree samplePath (savedDisk sampleBuilt) = Loaded.ok sampleBuilt) ∧
    (SaveMerkleTree (treeOfLeaves toyHash sampleLeaves) samplePath emptyDisk =
        Except.ok (savedDisk (treeOfLeaves toyHash sampleLeaves)) ∧
      LoadMerkleTree emptyTree samplePath (savedDisk (treeOfLeaves toyHash sampleLeaves)) =
        Loaded.ok (treeOfLeaves toyHash sampleLeaves)) :=
  ⟨⟨by rfl, (C13_round_trip sampleBuilt samplePath emptyDisk (savedDisk sampleBuilt)
      (by rfl)).1⟩,
    ⟨by rfl, (C13_round_trip (treeOfLeaves toyHash sampleLeaves) samplePath emptyDisk
      (savedDisk (treeOfLeaves toyHash sampleLeaves)) (by rfl)).1⟩⟩

set_option maxRecDepth 100000 in
/-- C14 as stated fails: the record whose only digest is the one byte `[1]` (base64
`AQ==`) is loaded into a fresh tree without error, and the loaded tree holds that digest
of width 1. -/
theorem C14_corrupt_counterexample :
    corruptDisk.files samplePath = some (FileData.json (singleNodeRecord "AQ==" false)) ∧
    LoadMerkleTree emptyTree samplePath corruptDisk =
      Loaded.ok { MerkleNodes := [[{ Hash := [1] }]], IsTreeBuilt := false } ∧
    ([1] : Bytes).length ≠ 32 := by
  refine ⟨by rfl, by rfl, by decide⟩

/-- C14, amended. `LoadMerkleTree` fails on every record that is structurally invalid:
when the file cannot be read, when its content is not JSON text, when the record, the
member `merkleNodes`, a level, a node, the member `hash` or the member `isTreeBuilt` has
the wrong JSON type, and when a digest string is not base64 text. A structurally invalid
record is never loaded with success, and inside the modelled fragment a record loaded
into a tree without levels fails exactly when it is structurally invalid. The width of a
digest is not checked: a record with a digest of any width loads without error with that
digest, and so does every record that `SaveMerkleTree` wrote. -/
theorem C14_load_amended (mt : MerkleTree) (filePath : String) (disk : Disk) :
    (disk.files filePath = none →
      LoadMerkleTree mt filePath disk = Loaded.error StorageError.readFailed) ∧
    (disk.files filePath = some FileData.notJson →
      LoadMerkleTree mt filePath disk = Loaded.error StorageError.syntaxError) ∧
    (∀ doc : Json, disk.files filePath = some (FileData.json doc) →
      recordFault doc = true → ∀ t, LoadMerkleTree mt filePath disk ≠ Loaded.ok t) ∧
    (∀ doc : Json, disk.files filePath = some (FileData.json doc) →
      recordCovered doc = true → mt.MerkleNodes = [] →
      (recordFault doc = true ↔ ∃ e, LoadMerkleTree mt filePath disk = Loaded.error e) ∧
      (recordFault doc = false ↔ ∃ t, LoadMerkleTree mt filePath disk = Loaded.ok t)) ∧
    (∀ (hashText : String) (flag : Bool),
      disk.files filePath = some (FileData.json (singleNodeRecord hashText flag)) →
      LoadMerkleTree emptyTree filePath disk =
        match base64Decode hashText.data with
        | some digest => Loaded.ok { MerkleNodes := [[{ Hash := digest }]], IsTreeBuilt := flag }
        | none => Loaded.error StorageError.base64Error) ∧
    (∀ (digest : Bytes) (flag : Bool),
      disk.files filePath =
        some (FileData.json (singleNodeRecord (String.mk (base64Encode digest)) flag)) →
      LoadMerkleTree emptyTree filePath disk =
        Loaded.ok { MerkleNodes := [[{ Hash := digest }]], IsTreeBuilt := flag }) ∧
    (∀ (t : MerkleTree) (before : Disk),
      SaveMerkleTree t filePath before = Except.ok disk →
      LoadMerkleTree emptyTree filePath disk = Loaded.ok t) := by
  have hsingle : ∀ (hashText : String) (flag : Bool),
      disk.files filePath = some (FileData.json (singleNodeRecord hashText flag)) →
      LoadMerkleTree emptyTree filePath disk =
        match base64Decode hashText.data with
        | some digest => Loaded.ok { MerkleNodes := [[{ Hash := digest }]], IsTreeBuilt := flag }
        | none => Loaded.error StorageError.base64Error := by
    intro hashText flag h
    simp only [LoadMerkleTree, ReadFile, h, singleNodeRecord, Unmarshal, and_self, if_true,
      applyLevels, emptyTree, decodeAll, decodeSlice, decodeNode, decodeBytes]
    cases base64Decode hashText.data <;> rfl
  refine ⟨?_, ?_, ?_, ?_, hsingle, ?_, ?_⟩
  · intro h
    simp only [LoadMerkleTree, ReadFile, h]
  · intro h
    simp only [LoadMerkleTree, ReadFile, h]
  · intro doc h hf t
    simp only [LoadMerkleTree, ReadFile, h]
    exact Unmarshal_fault doc mt hf t
  · intro doc h hc hfresh
    have hload : LoadMerkleTree mt filePath disk = Unmarshal doc mt := by
      simp only [LoadMerkleTree, ReadFile, h]
    rw [hload]
    obtain ⟨h1, h2⟩ := Unmarshal_covered doc mt hc hfresh
    constructor
    · constructor
      · exact h1
      · rintro ⟨e, he⟩
        cases hf : recordFault doc with
        | true => rfl
        | false =>
          obtain ⟨t, ht⟩ := h2 hf
          rw [he] at ht
          cases ht
    · constructor
      · exact h2
      · rintro ⟨t, ht⟩
        cases hf : recordFault doc with
        | false => rfl
        | true => exact absurd ht (Unmarshal_fault doc mt hf t)
  · intro digest flag h
    rw [hsingle _ flag h]
    simp only [base64Decode_encode]
  · intro t before hsave
    have hread := ReadFile_after_save t filePath before disk hsave
    simp only [LoadMerkleTree, hread, Unmarshal_Marshal t emptyTree rfl]

set_option maxRecDepth 100000 in
/-- C14, amended, at the store whose record holds the one-byte digest and at the store
whose record gives a number for `merkleNodes`. -/
theorem C14_load_amended_witness :
    (corruptDisk.files samplePath = some (FileData.json (singleNodeRecord "AQ==" false)) ∧
      LoadMerkleTree emptyTree samplePath corruptDisk =
        match base64Decode "AQ==".data with
        | some digest => Loaded.ok { MerkleNodes := [[{ Hash := digest }]], IsTreeBuilt := false }
        | none => Loaded.error StorageError.base64Error) ∧
    (numberDisk.files samplePath = some (FileData.json numberRecord) ∧
      recordCovered numberRecord = true ∧ emptyTree.MerkleNodes = [] ∧
      recordFault numberRecord = true ∧
      ∃ e, LoadMerkleTree emptyTree samplePath numberDisk = Loaded.error e) :=
  ⟨⟨by rfl,
      (C14_load_amended emptyTree samplePath corruptDisk).2.2.2.2.1 "AQ==" false (by rfl)⟩,
    ⟨by rfl, by rfl, by rfl, by rfl,
      (((C14_load_amended emptyTree samplePath numberDisk).2.2.2.1 numberRecord (by rfl)
        (by rfl) (by rfl)).1).mp (by rfl)⟩⟩

set_option maxRecDepth 100000 in
/-- C15 as stated fails: the tree of three added leaves has not been built, its flag is
`false` and it has level 0 only, and yet proof generation for the index 1 returns a proof,
of the leaf digest alone, and no error. -/
theorem C15_unbuilt_counterexample :
    (treeOfLeaves toyHash [[1], [2], [3]]).IsTreeBuilt = false ∧
    (treeOfLeaves toyHash [[1], [2], [3]]).MerkleNodes.length = 1 ∧
    GenerateMerkleProofForSegment (some (treeOfLeaves toyHash [[1], [2], [3]])) 1 =
      (some [{ Hash := toyHash.Sum256 [2], IsRight := false }], none) := by
  refine ⟨by rfl, by rfl, by rfl⟩

/-- C15, amended. Proof generation does not read `IsTreeBuilt`: its result is the same
for either value of the flag. On a tree that has level 0 only and an index inside level 0
it returns, without error, the proof whose single element holds the digest of that
leaf. -/
theorem C15_unbuilt_amended (t : MerkleTree) (level0 : List MerkleNode) (i : Nat)
    (leaf : MerkleNode) (ht : t.MerkleNodes = [level0]) (hleaf : level0[i]? = some leaf) :
    GenerateMerkleProofForSegment (some t) (i : Int) =
      (some [{ Hash := leaf.Hash, IsRight := false }], none) ∧
    (∀ (flag : Bool) (u : MerkleTree) (j : Int),
      GenerateMerkleProofForSegment
          (some { MerkleNodes := u.MerkleNodes, IsTreeBuilt := flag }) j =
        GenerateMerkleProofForSegment (some u) j) := by
  constructor
  · rw [generate_spec t level0 [] i leaf ht hleaf]
    simp [pathParts]
  · intro flag u j
    simp only [GenerateMerkleProofForSegment]

set_option maxRecDepth 100000 in
/-- C15, amended, at the unbuilt tree of five leaves and the index 4. -/
theorem C15_unbuilt_amended_witness :
    (treeOfLeaves toyHash sampleLeaves).MerkleNodes = [sampleLevel0] ∧
    sampleLevel0[4]? = some (newMerkleNode (toyHash.Sum256 [5])) ∧
    GenerateMerkleProofForSegment (some (treeOfLeaves toyHash sampleLeaves)) ((4 : Nat) : Int) =
      (some [{ Hash := (newMerkleNode (toyHash.Sum256 [5])).Hash, IsRight := false }], none) :=
  ⟨by rfl, by rfl,
    (C15_unbuilt_amended (treeOfLeaves toyHash sampleLeaves) sampleLevel0 4
      (newMerkleNode (toyHash.Sum256 [5])) (by rfl) (by rfl)).1⟩

set_option maxRecDepth 100000 in
/-- C16 as stated fails in both directions: the tree after one `AddLeaf` is reachable, its
topmost level has exactly one node and its flag is `false`; after a build and one more
`AddLeaf` the tree is reachable, its flag is `true` and its topmost level has two nodes. -/
theorem C16_flag_counterexample :
    (Reachable toyHash oneLeafTree ∧ oneLeafTree.IsTreeBuilt = false ∧
      oneLeafTree.MerkleNodes.getLast? = some [newMerkleNode (toyHash.Sum256 [1])]) ∧
    (Reachable toyHash builtThenGrown ∧ builtThenGrown.IsTreeBuilt = true ∧
      builtThenGrown.MerkleNodes.getLast? =
        some [newMerkleNode (toyHash.Sum256 [1]), newMerkleNode (toyHash.Sum256 [2])]) := by
  have h1 : Reachable toyHash oneLeafTree := Reachable.addLeaf _ _ Reachable.empty
  refine ⟨⟨h1, by rfl, by rfl⟩, ⟨?_, by rfl, by rfl⟩⟩
  exact Reachable.addLeaf _ _
    (Reachable.build oneLeafTree _ none h1 (by rfl))

/-- C16, amended. The built flag tells that a build has succeeded, not the shape: in every
state reachable from the empty tree, a `BuildMerkleTree` that returns no error leaves
`IsTreeBuilt` true and a topmost level of exactly one node, a `BuildMerkleTree` that
returns an error and every `AddLeaf` leave the flag as it was, and while the flag is
`false` the tree has at most level 0. -/
theorem C16_flag_amended (H : HashFn) (t : MerkleTree) (hr : Reachable H t) :
    (∀ after : MerkleTree, BuildMerkleTree H t = some (after, none) →
      after.IsTreeBuilt = true ∧ TopSingle after) ∧
    (∀ (after : MerkleTree) (e : MerkleError), BuildMerkleTree H t = some (after, some e) →
      after = t) ∧
    (∀ data : Bytes, (AddLeaf H t data).IsTreeBuilt = t.IsTreeBuilt) ∧
    (t.IsTreeBuilt = false → t.MerkleNodes.length ≤ 1) := by
  refine ⟨?_, ?_, ?_, ?_⟩
  · intro after hb
    obtain ⟨level0, up, ls, _, _, hbuilt, hwb⟩ := BuildMerkleTree_inv H t after hb
    subst hbuilt
    obtain ⟨root, htop⟩ := WellBuilt_top H ls level0 hwb
    exact ⟨rfl, root, htop⟩
  · intro after e hb
    cases hn : t.MerkleNodes with
    | nil =>
      simp only [BuildMerkleTree, BuildMerkleTreeFuel, hn, Option.some.injEq,
        Prod.mk.injEq] at hb
      exact hb.1.symm
    | cons level0 upper =>
      by_cases hz : level0.length = 0
      · simp only [BuildMerkleTree, BuildMerkleTreeFuel, hn, hz, if_true, Option.some.injEq,
          Prod.mk.injEq] at hb
        exact hb.1.symm
      · obtain ⟨ls, _, hbuild⟩ := BuildMerkleTree_spec H t level0 upper hn (by omega)
        rw [hbuild] at hb
        simp at hb
  · intro data
    cases hn : t.MerkleNodes with
    | nil => rw [AddLeaf_nil H t data hn]
    | cons level0 upper => rw [AddLeaf_cons H t data level0 upper hn]
  · induction hr with
    | empty => intro _; simp [emptyTree]
    | addLeaf u data _ ih =>
      intro hflag
      cases hn : u.MerkleNodes with
      | nil => rw [AddLeaf_nil H u data hn]; simp
      | cons level0 upper =>
        rw [AddLeaf_cons H u data level0 upper hn] at hflag ⊢
        have := ih hflag
        rw [hn] at this
        simpa using this
    | build u after err _ hb ih =>
      intro hflag
      cases err with
      | none =>
        obtain ⟨level0, up, ls, _, _, hbuilt, _⟩ := BuildMerkleTree_inv H u after hb
        subst hbuilt
        simp at hflag
      | some e =>
        have hsame : after = u := by
          cases hn : u.MerkleNodes with
          | nil =>
            simp only [BuildMerkleTree, BuildMerkleTreeFuel, hn, Option.some.injEq,
              Prod.mk.injEq] at hb
            exact hb.1.symm
          | cons level0 upper =>
            by_cases hz : level0.length = 0
            · simp only [BuildMerkleTree, BuildMerkleTreeFuel, hn, hz, if_true,
                Option.some.injEq, Prod.mk.injEq] at hb
              exact hb.1.symm
            · obtain ⟨ls, _, hbuild⟩ := BuildMerkleTree_spec H u level0 upper hn (by omega)
              rw [hbuild] at hb
              simp at hb
        subst hsame
        exact ih hflag

set_option maxRecDepth 100000 in
/-- C16, amended, at the unbuilt tree of one leaf. -/
theorem C16_flag_amended_witness :
    Reachable toyHash oneLeafTree ∧
    (∀ after : MerkleTree, BuildMerkleTree toyHash oneLeafTree = some (after, none) →
      after.IsTreeBuilt = true ∧ TopSingle after) ∧
    (oneLeafTree.IsTreeBuilt = false → oneLeafTree.MerkleNodes.length ≤ 1) :=
  ⟨Reachable.addLeaf _ _ Reachable.empty,
    (C16_flag_amended toyHash oneLeafTree (Reachable.addLeaf _ _ Reachable.empty)).1,
    (C16_flag_amended toyHash oneLeafTree (Reachable.addLeaf _ _ Reachable.empty)).2.2.2⟩

/-- C17. Level sizes halve, rounding up: after a build without error every level above
level 0 has `ceil(n / 2)` nodes, `n` being the size of the level below it; every level
that has a level above it has at least two nodes, and the last level has one. -/
theorem C17_level_sizes (H : HashFn) (mt built : MerkleTree)
    (hb : BuildMerkleTree H mt = some (built, none)) :
    (∀ (k : Nat) (lower upper : List MerkleNode),
      built.MerkleNodes[k]? = some lower → built.MerkleNodes[k + 1]? = some upper →
      upper.length = (lower.length + 1) / 2 ∧
      (lower.length ≤ 2 * upper.length ∧ 2 * upper.length < lower.length + 2) ∧
      2 ≤ lower.length) ∧
    (∃ top, built.MerkleNodes.getLast? = some top ∧ top.length = 1) := by
  obtain ⟨level0, up, ls, _, _, hbuilt, hwb⟩ := BuildMerkleTree_inv H mt built hb
  subst hbuilt
  constructor
  · intro k lower upper hk hk1
    obtain ⟨hlt, hup⟩ := WellBuilt_adjacent H _ k lower upper hwb hk hk1
    have hlen := combineLevel_length H lower
    rw [← hup] at hlen
    refine ⟨hlen, ⟨?_, ?_⟩, ?_⟩ <;> omega
  · obtain ⟨root, htop⟩ := WellBuilt_top H ls level0 hwb
    exact ⟨[root], htop, rfl⟩

set_option maxRecDepth 100000 in
/-- C17 at the tree of five leaves, whose levels have 5, 3, 2 and 1 nodes. -/
theorem C17_level_sizes_witness :
    BuildMerkleTree toyHash (treeOfLeaves toyHash sampleLeaves) = some (sampleBuilt, none) ∧
    (∀ (k : Nat) (lower upper : List MerkleNode),
      sampleBuilt.MerkleNodes[k]? = some lower → sampleBuilt.MerkleNodes[k + 1]? = some upper →
      upper.length = (lower.length + 1) / 2 ∧
      (lower.length ≤ 2 * upper.length ∧ 2 * upper.length < lower.length + 2) ∧
      2 ≤ lower.length) ∧
    (∃ top, sampleBuilt.MerkleNodes.getLast? = some top ∧ top.length = 1) ∧
    sampleBuilt.MerkleNodes.map List.length = [5, 3, 2, 1] :=
  ⟨by rfl,
    (C17_level_sizes toyHash (treeOfLeaves toyHash sampleLeaves) sampleBuilt (by rfl)).1,
    (C17_level_sizes toyHash (treeOfLeaves toyHash sampleLeaves) sampleBuilt (by rfl)).2,
    by rfl⟩

/-- C18. Proof length: on a built tree with `n ≥ 1` leaves the proof generated for any
index inside level 0 has exactly `1 + ceil(log2 n)` elements, which is the number of
levels of the tree, for every `n`. -/
theorem C18_proof_length (H : HashFn) (mt built : MerkleTree) (level0 : List MerkleNode)
    (i : Nat) (hb : BuildMerkleTree H mt = some (built, none))
    (h0 : built.MerkleNodes[0]? = some level0) (hi : i < level0.length) :
    ∃ proof, GenerateMerkleProofForSegment (some built) (i : Int) = (some proof, none) ∧
      proof.length = 1 + Nat.clog 2 level0.length ∧
      proof.length = built.MerkleNodes.length := by
  obtain ⟨lv0, up, ls, _, _, hbuilt, hwb⟩ := BuildMerkleTree_inv H mt built hb
  subst hbuilt
  simp only [List.getElem?_cons_zero, Option.some.injEq] at h0
  subst h0
  have hplen := pathParts_length H ls lv0 i hwb hi
  have hclog := WellBuilt_length_clog H ls lv0 hwb
  refine ⟨_, generate_spec _ lv0 ls i _ rfl (List.getElem?_eq_getElem hi), ?_, ?_⟩
  · simp only [List.length_cons, hplen, hclog]
    omega
  · simp only [List.length_cons, hplen]

set_option maxRecDepth 100000 in
/-- C18 at the tree of five leaves and its leaf 2: four elements, `1 + ceil(log2 5)`. -/
theorem C18_proof_length_witness :
    BuildMerkleTree toyHash (treeOfLeaves toyHash sampleLeaves) = some (sampleBuilt, none) ∧
    sampleBuilt.MerkleNodes[0]? = some sampleLevel0 ∧ 2 < sampleLevel0.length ∧
    ∃ proof, GenerateMerkleProofForSegment (some sampleBuilt) ((2 : Nat) : Int) =
        (some proof, none) ∧
      proof.length = 1 + Nat.clog 2 sampleLevel0.length ∧
      proof.length = sampleBuilt.MerkleNodes.length :=
  ⟨by rfl, by rfl, by decide,
    C18_proof_length toyHash (treeOfLeaves toyHash sampleLeaves) sampleBuilt sampleLevel0 2
      (by rfl) (by rfl) (by decide)⟩

/-- C19. The root does not distinguish a duplicated last leaf: for a leaf sequence of odd
length `n ≥ 3`, the tree of the sequence and the tree of the sequence with the data of its
last leaf appended once more build to the same levels above level 0 and to the same root
digest, for every hash. -/
theorem C19_duplicated_last_leaf (H : HashFn) (datas : List Bytes) (last : Bytes)
    (hodd : datas.length % 2 = 1) (h3 : 3 ≤ datas.length)
    (hlast : datas.getLast? = some last) :
    ∃ level0 upper root,
      BuildMerkleTree H (treeOfLeaves H datas) =
        some ({ MerkleNodes := level0 :: upper, IsTreeBuilt := true }, none) ∧
      BuildMerkleTree H (treeOfLeaves H (datas ++ [last])) =
        some ({ MerkleNodes := (level0 ++ [newMerkleNode (H.Sum256 last)]) :: upper,
                IsTreeBuilt := true }, none) ∧
      GetRootHash { MerkleNodes := level0 :: upper, IsTreeBuilt := true } = some root ∧
      GetRootHash { MerkleNodes := (level0 ++ [newMerkleNode (H.Sum256 last)]) :: upper,
                    IsTreeBuilt := true } = some root := by
  obtain ⟨init, hinit⟩ := List.getLast?_eq_some_iff.mp hlast
  subst hinit
  have hilen : init.length % 2 = 0 ∧ 2 ≤ init.length := by
    simp only [List.length_append, List.length_singleton] at hodd h3
    omega
  have ht1 := treeOfLeaves_ne_nil H (init ++ [last]) (by simp)
  have ht2 := treeOfLeaves_ne_nil H (init ++ [last] ++ [last]) (by simp)
  have hl1 : 1 < ((init ++ [last]).map (fun x => newMerkleNode (H.Sum256 x))).length := by
    simp; omega
  have hl2 : 1 < ((init ++ [last] ++ [last]).map
      (fun x => newMerkleNode (H.Sum256 x))).length := by
    simp
  obtain ⟨ls1, hwb1, hb1⟩ := BuildMerkleTree_spec H _ _ []
    (congrArg MerkleTree.MerkleNodes ht1) (by omega)
  obtain ⟨ls2, hwb2, hb2⟩ := BuildMerkleTree_spec H _ _ []
    (congrArg MerkleTree.MerkleNodes ht2) (by omega)
  obtain ⟨rest1, hls1, hwr1⟩ := WellBuilt_next H ls1 _ hwb1 hl1
  obtain ⟨rest2, hls2, hwr2⟩ := WellBuilt_next H ls2 _ hwb2 hl2
  have hmaplen : (init.map (fun x => newMerkleNode (H.Sum256 x))).length % 2 = 0 := by
    simp [hilen.1]
  have hcomb : combineLevel H ((init ++ [last] ++ [last]).map
        (fun x => newMerkleNode (H.Sum256 x))) =
      combineLevel H ((init ++ [last]).map (fun x => newMerkleNode (H.Sum256 x))) := by
    simp only [List.map_append, List.append_assoc, List.map_cons, List.map_nil,
      List.singleton_append]
    rw [combineLevel_append_even H _ _ hmaplen, combineLevel_append_even H _ _ hmaplen]
    simp [combineLevel, newMerkleNode]
  rw [hcomb] at hls2 hwr2
  have hrest : rest2 = rest1 := WellBuilt_unique H rest2 rest1 _ hwr2 hwr1
  subst hrest
  subst hls1
  subst hls2
  obtain ⟨root, htop⟩ := WellBuilt_top H _ _ hwb1
  have htop2 : (((init ++ [last]).map (fun x => newMerkleNode (H.Sum256 x)) ++
      [newMerkleNode (H.Sum256 last)]) ::
      combineLevel H ((init ++ [last]).map (fun x => newMerkleNode (H.Sum256 x))) ::
        rest2).getLast? = some [root] := by
    rw [List.getLast?_cons_cons] at htop ⊢
    exact htop
  refine ⟨_, _, root.Hash, hb1, ?_, GetRootHash_of_top _ root htop,
    GetRootHash_of_top _ root htop2⟩
  rw [hb2]
  simp

set_option maxRecDepth 100000 in
/-- C19 at the five leaves `[1] .. [5]` and the six leaves `[1] .. [5], [5]`. -/
theorem C19_duplicated_last_leaf_witness :
    sampleLeaves.length % 2 = 1 ∧ 3 ≤ sampleLeaves.length ∧
    sampleLeaves.getLast? = some [5] ∧
    ∃ level0 upper root,
      BuildMerkleTree toyHash (treeOfLeaves toyHash sampleLeaves) =
        some ({ MerkleNodes := level0 :: upper, IsTreeBuilt := true }, none) ∧
      BuildMerkleTree toyHash (treeOfLeaves toyHash (sampleLeaves ++ [[5]])) =
        some ({ MerkleNodes := (level0 ++ [newMerkleNode (toyHash.Sum256 [5])]) :: upper,
                IsTreeBuilt := true }, none) ∧
      GetRootHash { MerkleNodes := level0 :: upper, IsTreeBuilt := true } = some root ∧
      GetRootHash { MerkleNodes := (level0 ++ [newMerkleNode (toyHash.Sum256 [5])]) :: upper,
                    IsTreeBuilt := true } = some root :=
  ⟨by decide, by decide, by rfl,
    C19_duplicated_last_leaf toyHash sampleLeaves [5] (by decide) (by decide) (by rfl)⟩

end Merkle
